import Mathlib

/-!
# pggen: Go type model (`internal/codegen/golang/gotype/types.go`)

A shallow embedding of the Go type descriptors that pggen emits for Postgres
types, and of the helpers that build and qualify them.

Go strings and byte slices are finite byte sequences; they are embedded as
lists of byte values.  A panic of the Go code (an index out of range) is
embedded as `none`.
-/

namespace Pggen

/-! ## Go strings -/

/-- A Go `string` or `[]byte`: a finite sequence of bytes, each a natural
number.  A number above 255 is no byte; the functions below treat it as a byte
that is neither ASCII nor part of a well-formed UTF-8 sequence, and the
theorems hold for every list. -/
abbrev GoString := List Nat

/-- The UTF-8 encoding of one rune, `utf8.AppendRune`: surrogates and values
above `utf8.MaxRune` are written as `utf8.RuneError` (U+FFFD). -/
def encodeRune (r : Nat) : GoString :=
  if r ≤ 0x7F then [r]
  else if r ≤ 0x7FF then [0xC0 + r / 64, 0x80 + r % 64]
  else if 0x10FFFF < r ∨ (0xD800 ≤ r ∧ r ≤ 0xDFFF) then [0xEF, 0xBF, 0xBD]
  else if r ≤ 0xFFFF then [0xE0 + r / 4096, 0x80 + r / 64 % 64, 0x80 + r % 64]
  else [0xF0 + r / 262144, 0x80 + r / 4096 % 64, 0x80 + r / 64 % 64, 0x80 + r % 64]

/-- The bytes of a string literal of the Go source. -/
def lit (s : String) : GoString :=
  s.data.flatMap (fun c => encodeRune c.toNat)

/-- Go `xs[i]` with an `int` index: `none` is the index-out-of-range panic. -/
def index {α : Type} (xs : List α) (i : Int) : Option α :=
  if 0 ≤ i then xs[i.toNat]? else none

/-- Go `xs[i] = v`: `none` is the index-out-of-range panic. -/
def setIndex {α : Type} (xs : List α) (i : Nat) (v : α) : Option (List α) :=
  if i < xs.length then some (xs.set i v) else none

/-- Go `bs[lo:]`: `none` is the slice-bounds panic. -/
def sliceFrom (bs : GoString) (lo : Int) : Option GoString :=
  if 0 ≤ lo ∧ lo ≤ bs.length then some (bs.drop lo.toNat) else none

/-- Go `bs[:hi]`: `none` is the slice-bounds panic. -/
def sliceTo (bs : GoString) (hi : Int) : Option GoString :=
  if 0 ≤ hi ∧ hi ≤ bs.length then some (bs.take hi.toNat) else none

/-- Loop of `bytes.IndexByte`: the first position of `c` in `s`, counted from
`i`, or `-1`. -/
def indexByteFrom (c : Nat) : GoString → Nat → Int
  | [], _ => -1
  | b :: rest, i => if b = c then (i : Int) else indexByteFrom c rest (i + 1)

/-- Go `strings.IndexByte`. -/
def IndexByte (s : GoString) (c : Nat) : Int :=
  indexByteFrom c s 0

/-- Loop of `bytes.LastIndexByte`: `i` runs from `n - 1` down to `0`. -/
def lastIndexByteBelow (s : GoString) (c : Nat) : Nat → Int
  | 0 => -1
  | n + 1 => if s[n]? = some c then (n : Int) else lastIndexByteBelow s c n

/-- Go `bytes.LastIndexByte`: the last position of `c` in `s`, or `-1`. -/
def LastIndexByte (s : GoString) (c : Nat) : Int :=
  lastIndexByteBelow s c s.length

/-- Go `bytes.HasPrefix`. -/
def HasPrefix (s pre : GoString) : Bool :=
  pre.length ≤ s.length && s.take pre.length == pre

/-- Loop of `bytes.Split` for a one-byte separator: `cur` is the segment being
read. -/
def splitLoop (sep : Nat) : GoString → GoString → List GoString
  | [], cur => [cur]
  | b :: rest, cur =>
    if b = sep then cur :: splitLoop sep rest [] else splitLoop sep rest (cur ++ [b])

/-- Go `bytes.Split(s, []byte{sep})`: the segments of `s` between occurrences
of `sep`; always at least one segment. -/
def Split (s : GoString) (sep : Nat) : List GoString :=
  splitLoop sep s []

/-- Go `utf8.RuneError`. -/
def RuneError : Nat := 0xFFFD

/-- Go `runtime.decoderune` (with the ASCII case of the `range` loop): the first
rune of `s` and its width in bytes.  A malformed sequence gives `RuneError` and
width 1.  `b & mask` is written `b % (mask + 1)`, and the shifted parts, which
have no bit in common, are added. -/
def decodeRune : GoString → Nat × Nat
  | [] => (RuneError, 1)
  | s0 :: rest =>
    if s0 < 0x80 then (s0, 1)
    else if 0xC0 ≤ s0 ∧ s0 < 0xE0 then
      match rest with
      | s1 :: _ =>
        if 0x80 ≤ s1 ∧ s1 ≤ 0xBF then
          let r := s0 % 32 * 64 + s1 % 64
          if 0x7F < r then (r, 2) else (RuneError, 1)
        else (RuneError, 1)
      | _ => (RuneError, 1)
    else if 0xE0 ≤ s0 ∧ s0 < 0xF0 then
      match rest with
      | s1 :: s2 :: _ =>
        if (0x80 ≤ s1 ∧ s1 ≤ 0xBF) ∧ (0x80 ≤ s2 ∧ s2 ≤ 0xBF) then
          let r := s0 % 16 * 4096 + s1 % 64 * 64 + s2 % 64
          if 0x7FF < r ∧ ¬ (0xD800 ≤ r ∧ r ≤ 0xDFFF) then (r, 3) else (RuneError, 1)
        else (RuneError, 1)
      | _ => (RuneError, 1)
    else if 0xF0 ≤ s0 ∧ s0 < 0xF8 then
      match rest with
      | s1 :: s2 :: s3 :: _ =>
        if (0x80 ≤ s1 ∧ s1 ≤ 0xBF) ∧ (0x80 ≤ s2 ∧ s2 ≤ 0xBF) ∧ (0x80 ≤ s3 ∧ s3 ≤ 0xBF) then
          let r := s0 % 8 * 262144 + s1 % 64 * 4096 + s2 % 64 * 64 + s3 % 64
          if 0xFFFF < r ∧ r ≤ 0x10FFFF then (r, 4) else (RuneError, 1)
        else (RuneError, 1)
      | _ => (RuneError, 1)
    else (RuneError, 1)

/-- The runes that `for _, ch := range s` visits: a rune is decoded at the
current position and the next `skip` bytes, which belong to it, are passed
over. -/
def rangeLoop : Nat → GoString → List Nat
  | _, [] => []
  | skip + 1, _ :: rest => rangeLoop skip rest
  | 0, b :: rest =>
    (decodeRune (b :: rest)).1 :: rangeLoop ((decodeRune (b :: rest)).2 - 1) rest

/-- The runes of a Go string, in the order `range` yields them. -/
def runes (s : GoString) : List Nat :=
  rangeLoop 0 s

/-- Go `strings.IndexRune(s, r) >= 0`, as `strings.ContainsRune` computes it:
a byte search for a rune below `utf8.RuneSelf`, a search among the decoded
runes for `RuneError`, never for another invalid rune, and a substring search
for the encoding otherwise. -/
def ContainsRune (s : GoString) (r : Nat) : Bool :=
  if r < 0x80 then decide (0 ≤ IndexByte s r)
  else if r = RuneError then (runes s).contains RuneError
  else if 0x10FFFF < r ∨ (0xD800 ≤ r ∧ r ≤ 0xDFFF) then false
  else s.tails.any (fun t => HasPrefix t (encodeRune r))

/-- Go `strconv.Itoa` on a non-negative `int`: its decimal digits. -/
def Itoa (i : Nat) : GoString :=
  (Nat.toDigits 10 i).map Char.toNat

/-! ## The `Type` interface and its three implementations -/

/-- Modelled from the spec: `pg.EnumType`, declared in package `pg`, which is
not under the sources: the name and the ordered labels of a Postgres enum
(section 3), the two fields that `types.go` reads. -/
structure PgEnumType where
  Name : GoString
  Labels : List GoString
  deriving DecidableEq, Repr

/-- Modelled from the spec: `pg.CompositeType`, declared in package `pg`, which
is not under the sources: a catalog type has a name (section 3).  `types.go`
stores the value and never looks inside it. -/
structure PgCompositeType where
  Name : GoString
  deriving DecidableEq, Repr

/-- Go `EnumType`: a string type with constant values that maps to the labels
of a Postgres enum. -/
structure EnumType where
  PgEnum : PgEnumType
  PkgPath : GoString
  Pkg : GoString
  Name : GoString
  Labels : List GoString
  Values : List GoString
  deriving DecidableEq, Repr

/-- Go `OpaqueType`: a type where only the name is known. -/
structure OpaqueType where
  PkgPath : GoString := []
  Pkg : GoString := []
  Name : GoString := []
  deriving DecidableEq, Repr

/-- Go `CompositeType`, over the type `τ` of its field types. -/
structure CompositeType (τ : Type) where
  PgComposite : PgCompositeType
  PkgPath : GoString
  Pkg : GoString
  Name : GoString
  FieldNames : List GoString
  FieldTypes : List τ

/-- A value of the Go interface `Type`: one of its three implementations. -/
inductive GoType where
  | ofEnum (e : EnumType)
  | ofOpaque (o : OpaqueType)
  | ofComposite (c : CompositeType GoType)

/-- Go `func (e EnumType) Import() string`. -/
def EnumType.Import (e : EnumType) : GoString := e.PkgPath

/-- Go `func (e EnumType) Package() string`. -/
def EnumType.Package (e : EnumType) : GoString := e.Pkg

/-- Go `func (e EnumType) BaseName() string`. -/
def EnumType.BaseName (e : EnumType) : GoString := e.Name

/-- Go `func (o OpaqueType) Import() string`. -/
def OpaqueType.Import (o : OpaqueType) : GoString := o.PkgPath

/-- Go `func (o OpaqueType) Package() string`. -/
def OpaqueType.Package (o : OpaqueType) : GoString := o.Pkg

/-- Go `func (o OpaqueType) BaseName() string`. -/
def OpaqueType.BaseName (o : OpaqueType) : GoString := o.Name

/-- Go `func (c CompositeType) Import() string`. -/
def CompositeType.Import {τ : Type} (c : CompositeType τ) : GoString := c.PkgPath

/-- Go `func (c CompositeType) Package() string`. -/
def CompositeType.Package {τ : Type} (c : CompositeType τ) : GoString := c.Pkg

/-- Go `func (c CompositeType) BaseName() string`. -/
def CompositeType.BaseName {τ : Type} (c : CompositeType τ) : GoString := c.Name

/-- Interface call `typ.Import()`, dispatched on the implementation. -/
def GoType.Import : GoType → GoString
  | .ofEnum e => e.Import
  | .ofOpaque o => o.Import
  | .ofComposite c => c.Import

/-- Interface call `typ.Package()`, dispatched on the implementation. -/
def GoType.Package : GoType → GoString
  | .ofEnum e => e.Package
  | .ofOpaque o => o.Package
  | .ofComposite c => c.Package

/-- Interface call `typ.BaseName()`, dispatched on the implementation. -/
def GoType.BaseName : GoType → GoString
  | .ofEnum e => e.BaseName
  | .ofOpaque o => o.BaseName
  | .ofComposite c => c.BaseName

/-- Go `qualifyRel`: the bare base name for the type's own package or for a
type without package, else the short package, a dot and the base name. -/
def qualifyRel (typ : GoType) (otherPkgPath : GoString) : GoString :=
  if typ.Import = otherPkgPath ∨ typ.Import = [] ∨ typ.Package = [] then
    typ.BaseName
  else
    let sb : GoString := []
    let sb := if typ.Import ≠ [] then (sb ++ typ.Package) ++ [46] else sb
    sb ++ typ.BaseName

/-- Go `func (e EnumType) QualifyRel(pkgPath string) string`. -/
def EnumType.QualifyRel (e : EnumType) (pkgPath : GoString) : GoString :=
  qualifyRel (.ofEnum e) pkgPath

/-- Go `func (o OpaqueType) QualifyRel(pkgPath string) string`. -/
def OpaqueType.QualifyRel (o : OpaqueType) (pkgPath : GoString) : GoString :=
  qualifyRel (.ofOpaque o) pkgPath

/-- Go `func (c CompositeType) QualifyRel(pkgPath string) string`. -/
def CompositeType.QualifyRel (c : CompositeType GoType) (pkgPath : GoString) : GoString :=
  qualifyRel (.ofComposite c) pkgPath

/-- Interface call `typ.QualifyRel(pkgPath)`, dispatched on the
implementation. -/
def GoType.QualifyRel : GoType → GoString → GoString
  | .ofEnum e, pkgPath => e.QualifyRel pkgPath
  | .ofOpaque o, pkgPath => o.QualifyRel pkgPath
  | .ofComposite c, pkgPath => c.QualifyRel pkgPath

/-! ## Constructors -/

/-- Go `majorVersionRegexp.Match`, the regular expression `^v[0-9]+$` on a
byte slice: the byte `v`, then one or more ASCII digits, then the end of the
text. -/
def majorVersionRegexpMatch : GoString → Bool
  | [] => false
  | b :: rest => b == 118 && !rest.isEmpty && rest.all (fun d => decide (48 ≤ d ∧ d ≤ 57))

/-- Go `ExtractShortPackage`: the last part of a package path, or the part
before it when the last part is a major version suffix.  `none` is a panic of
one of the two indexings. -/
def ExtractShortPackage (pkgPath : GoString) : Option GoString :=
  let parts := Split pkgPath 47
  match index parts ((parts.length : Int) - 1) with
  | none => none
  | some shortPkg =>
    if HasPrefix shortPkg [118] && majorVersionRegexpMatch shortPkg then
      index parts ((parts.length : Int) - 2)
    else
      some shortPkg

/-- Go `NewOpaqueType`: parses a qualified Go type such as
`github.com/jschaf/pggen.GenerateOpts`, or a builtin type such as `string`.
`none` is a panic. -/
def NewOpaqueType (qualType : GoString) : Option OpaqueType :=
  if !ContainsRune qualType 46 then
    some { Name := qualType }
  else
    let bs := qualType
    let idx := LastIndexByte bs 46
    match sliceFrom bs (idx + 1), sliceTo bs idx with
    | some name, some pkgPath =>
      match ExtractShortPackage pkgPath with
      | some shortPkg => some { PkgPath := pkgPath, Pkg := shortPkg, Name := name }
      | none => none
    | _, _ => none

/-- The two predicates of Go package `unicode` that `ChooseFallbackName`
calls; their tables belong to the Go library and are a parameter of the
model. -/
structure Unicode where
  IsLetter : Nat → Bool
  IsDigit : Nat → Bool

/-- The method of `casing.Caser` that `NewEnumType` calls; package `casing` is
not under the sources, and the caser is a parameter of the model. -/
structure Caser where
  ToUpperGoIdent : GoString → GoString

/-- Body of the loop of `ChooseFallbackName` over the runes of `pgName`: a
letter, an underscore or a digit is written to the builder `sb`. -/
def fallbackLoop (u : Unicode) : List Nat → GoString → GoString
  | [], sb => sb
  | ch :: rest, sb =>
    if u.IsLetter ch || ch == 95 || u.IsDigit ch then
      fallbackLoop u rest (sb ++ encodeRune ch)
    else
      fallbackLoop u rest sb

/-- Go `ChooseFallbackName`. -/
def ChooseFallbackName (u : Unicode) (pgName : GoString) (pfx : GoString) : GoString :=
  let sb : GoString := []
  let sb := sb ++ pfx
  fallbackLoop u (runes pgName) sb

/-- The loop of `NewEnumType` over `pgEnum.Labels` from position `i` on, with
`todo` the labels still to visit; `none` is an index-out-of-range panic. -/
def labelLoop (u : Unicode) (caser : Caser) (pgEnum : PgEnumType) (name : GoString) :
    Nat → List GoString → List GoString × List GoString →
    Option (List GoString × List GoString)
  | _, [], acc => some acc
  | i, label :: todo, (labels, values) =>
    let ident := caser.ToUpperGoIdent label
    let ident :=
      if ident = [] then ChooseFallbackName u label (lit "UnnamedLabel" ++ Itoa i) else ident
    match setIndex labels i (name ++ ident), index pgEnum.Labels i with
    | some labels, some v =>
      match setIndex values i v with
      | some values => labelLoop u caser pgEnum name (i + 1) todo (labels, values)
      | none => none
    | _, _ => none

/-- Go `NewEnumType`; `none` is a panic. -/
def NewEnumType (u : Unicode) (pkgPath : GoString) (pgEnum : PgEnumType) (caser : Caser) :
    Option EnumType :=
  let name := caser.ToUpperGoIdent pgEnum.Name
  let name := if name = [] then ChooseFallbackName u pgEnum.Name (lit "UnnamedEnum") else name
  let labels : List GoString := List.replicate pgEnum.Labels.length []
  let values : List GoString := List.replicate pgEnum.Labels.length []
  match labelLoop u caser pgEnum name 0 pgEnum.Labels (labels, values) with
  | none => none
  | some (labels, values) =>
    match ExtractShortPackage pkgPath with
    | none => none
    | some pkg =>
      some { PgEnum := pgEnum, PkgPath := pkgPath, Pkg := pkg, Name := name,
             Labels := labels, Values := values }

/-! ## Type inference (`internal/pginfer`) -/

/-- Modelled from the spec: the declared result kind of a query (section 3,
`ResultKind`); `pginfer_test.go` names the three values `ResultKindExec`,
`ResultKindOne` and `ResultKindMany` of package `ast`, which is not under the
sources. -/
inductive ResultKind where
  | Exec
  | One
  | Many
  deriving DecidableEq, Repr

/-- Modelled from the spec: how a result kind is written in a message, `:exec`,
`:one` or `:many` (section 7 and the messages of `pginfer_test.go`). -/
def ResultKind.String : ResultKind → GoString
  | .Exec => lit ":exec"
  | .One => lit ":one"
  | .Many => lit ":many"

/-- Modelled from the spec: `ast.SourceQuery` (section 3), with the fields that
`pginfer_test.go` sets. -/
structure SourceQuery where
  Name : GoString
  PreparedSQL : GoString
  ParamNames : List GoString
  Kind : ResultKind
  deriving DecidableEq, Repr

/-- Modelled from the spec: one result tuple that describe reports (sections
4.1 and 6): column name, catalog type and nullability hint, over the type `κ`
of catalog types. -/
structure ResultColumn (κ : Type) where
  Name : GoString
  PgType : κ
  NullableHint : Option Bool
  deriving DecidableEq, Repr

/-- Modelled from the spec: what prepare and describe report for a statement
(section 6): the ordered parameter types and the ordered result tuples. -/
structure Description (κ : Type) where
  Params : List κ
  Columns : List (ResultColumn κ)
  deriving DecidableEq, Repr

/-- Modelled from the spec: the errors of section 7 and the parameter count
mismatch of section 4.1. -/
inductive InferError where
  | ConnectionError
  | SyntaxError
  | ParamCountMismatch
  | ResultKindMismatch (message : GoString)
  | UnresolvableType
  | NameCollision
  deriving DecidableEq, Repr

/-- The outcome of an operation that returns a value or an error. -/
inductive Result (α : Type) where
  | ok (value : α)
  | error (err : InferError)
  deriving DecidableEq, Repr

/-- Modelled from the spec: `InputParam` (section 3), with the field names of
`pginfer_test.go`, over the catalog types `κ` and the target types `τ`. -/
structure InputParam (κ τ : Type) where
  Name : GoString
  PgType : κ
  GoType : τ
  deriving DecidableEq, Repr

/-- Modelled from the spec: `OutputColumn` (section 3), with the field names of
`pginfer_test.go`. -/
structure OutputColumn (κ τ : Type) where
  PgName : GoString
  GoName : GoString
  PgType : κ
  GoType : τ
  Nullable : Bool
  deriving DecidableEq, Repr

/-- Modelled from the spec: `TypedQuery` (section 3), with the field names of
`pginfer_test.go`. -/
structure TypedQuery (κ τ : Type) where
  Name : GoString
  PreparedSQL : GoString
  Inputs : List (InputParam κ τ)
  Outputs : List (OutputColumn κ τ)
  deriving DecidableEq, Repr

/-- Modelled from the spec: the collaborators of the Type Inferrer (sections
4.1 and 6), whose sources are not under the sources: the prepare and describe
facility of the engine, the Type Resolver, the Casing Transform for output
identifiers and the positional suffix that disambiguates a repeated one. -/
structure Inferrer (κ τ : Type) where
  describe : GoString → Result (Description κ)
  resolve : κ → Result τ
  ident : GoString → GoString
  suffix : Nat → GoString

/-- Modelled from the spec: the inputs of a typed query (sections 3 and 4.1),
one per parameter name in order, each with the catalog type the engine reports
and the target type the Resolver gives for it. -/
def inferInputs {κ τ : Type} (inf : Inferrer κ τ) :
    List GoString → List κ → Result (List (InputParam κ τ))
  | name :: names, pgType :: pgTypes =>
    match inf.resolve pgType with
    | .error err => .error err
    | .ok goType =>
      match inferInputs inf names pgTypes with
      | .error err => .error err
      | .ok inputs => .ok ({ Name := name, PgType := pgType, GoType := goType } :: inputs)
  | _, _ => .ok []

/-- Modelled from the spec: the outputs of a typed query (section 4.1), one per
reported result column in order, from position `i` on; `seen` holds the
identifiers of the earlier columns.  The identifier is the Casing Transform of
the column name, with a positional suffix when an earlier column has the same
one; the nullability is the hint of the engine, or nullable without one. -/
def inferOutputs {κ τ : Type} (inf : Inferrer κ τ) :
    Nat → List GoString → List (ResultColumn κ) → Result (List (OutputColumn κ τ))
  | _, _, [] => .ok []
  | i, seen, col :: cols =>
    match inf.resolve col.PgType with
    | .error err => .error err
    | .ok goType =>
      let goName := if inf.ident col.Name ∈ seen then inf.ident col.Name ++ inf.suffix i
        else inf.ident col.Name
      match inferOutputs inf (i + 1) (inf.ident col.Name :: seen) cols with
      | .error err => .error err
      | .ok outputs =>
        .ok ({ PgName := col.Name, GoName := goName, PgType := col.PgType, GoType := goType,
               Nullable := col.NullableHint.getD true } :: outputs)

/-- Modelled from the spec: the message of a result kind mismatch (section
7). -/
def resultKindMismatchMessage (q : SourceQuery) : GoString :=
  lit "query " ++ q.Name ++ lit " has incompatible result kind " ++ q.Kind.String ++
    lit "; the query doesn't return any rows"

/-- Modelled from the spec: `Inferrer.InferTypes` of `internal/pginfer`, whose
source is not under the sources (section 4.1, in the order of its clauses).  The
statement is prepared and described; the parameter count must be the number of
parameter names; `Exec` ignores the reported result columns, `One` and `Many`
need at least one; then the inputs and the outputs are typed. -/
def InferTypes {κ τ : Type} (inf : Inferrer κ τ) (q : SourceQuery) : Result (TypedQuery κ τ) :=
  match inf.describe q.PreparedSQL with
  | .error err => .error err
  | .ok d =>
    if d.Params.length ≠ q.ParamNames.length then .error .ParamCountMismatch
    else
      let columns := match q.Kind with
        | .Exec => []
        | _ => d.Columns
      if q.Kind ≠ .Exec ∧ columns.isEmpty then
        .error (.ResultKindMismatch (resultKindMismatchMessage q))
      else
        match inferInputs inf q.ParamNames d.Params with
        | .error err => .error err
        | .ok inputs =>
          match inferOutputs inf 0 [] columns with
          | .error err => .error err
          | .ok outputs =>
            .ok { Name := q.Name, PreparedSQL := q.PreparedSQL, Inputs := inputs,
                  Outputs := outputs }

/-- The engine and the Resolver of `pginfer_test.go`, on the schema of
`example/author`: the three statements of the tests, the catalog types `int4`
and `text`, and their target types `int32` and `string`. -/
def authorInferrer : Inferrer GoString GoString where
  describe := fun sql =>
    if sql = lit "SELECT first_name FROM author WHERE first_name = $1;" then
      .ok ⟨[lit "text"], [⟨lit "first_name", lit "text", some false⟩]⟩
    else if sql = lit "DELETE FROM author WHERE author_id = $1;" then
      .ok ⟨[lit "int4"], []⟩
    else if sql = lit "DELETE FROM author WHERE author_id = $1 RETURNING author_id, first_name;" then
      .ok ⟨[lit "int4"],
        [⟨lit "author_id", lit "int4", some false⟩, ⟨lit "first_name", lit "text", some false⟩]⟩
    else .error .SyntaxError
  resolve := fun pgType =>
    if pgType = lit "int4" then .ok (lit "int32")
    else if pgType = lit "text" then .ok (lit "string")
    else .error .UnresolvableType
  ident := fun name => name
  suffix := Itoa

/-- Modelled from the spec: the empty value `TypedQuery{}` of a typed query,
which `pginfer_test.go` expects next to an error. -/
def TypedQuery.empty {κ τ : Type} : TypedQuery κ τ :=
  { Name := [], PreparedSQL := [], Inputs := [], Outputs := [] }

/-- Modelled from the spec: the pair `(TypedQuery, error)` that the Go method
`InferTypes` returns, as `pginfer_test.go` reads it: the typed query and no
error, or the empty typed query and the error. -/
def InferTypes.returned {κ τ : Type} (inf : Inferrer κ τ) (q : SourceQuery) :
    TypedQuery κ τ × Option InferError :=
  match InferTypes inf q with
  | .ok typed => (typed, none)
  | .error err => (TypedQuery.empty, some err)

/-! ## Specification vocabulary -/

/-- A rune that UTF-8 can encode: at most `utf8.MaxRune` and not a surrogate
(Go `utf8.ValidRune`). -/
def ValidRune (r : Nat) : Prop :=
  r ≤ 0x10FFFF ∧ ¬ (0xD800 ≤ r ∧ r ≤ 0xDFFF)


/-- A bare major version: the letter `v` followed by one or more ASCII digits
and nothing else. -/
def IsMajorVersion (seg : GoString) : Prop :=
  ∃ ds : GoString, ds ≠ [] ∧ (∀ d ∈ ds, 48 ≤ d ∧ d ≤ 57) ∧ seg = 118 :: ds

/-- The package path whose `/`-separated segments are `segs`. -/
def joinPath (segs : List GoString) : GoString :=
  [47].intercalate segs

/-- The characters of `s` that are letters, digits or underscores, in their
original order, as a Go string. -/
def identChars (u : Unicode) (s : GoString) : GoString :=
  ((runes s).filter (fun ch => u.IsLetter ch = true ∨ ch = 95 ∨ u.IsDigit ch = true)).flatMap
    encodeRune

/-- The identifier of the label `label` at position `i`, after the type name:
the caser's identifier, or the fallback when that is empty. -/
def labelIdent (u : Unicode) (caser : Caser) (i : Nat) (label : GoString) : GoString :=
  if caser.ToUpperGoIdent label = [] then lit "UnnamedLabel" ++ Itoa i ++ identChars u label
  else caser.ToUpperGoIdent label

/-- The Go identifiers of the labels `todo`, which start at position `i`. -/
def labelIdents (u : Unicode) (caser : Caser) (name : GoString) : Nat → List GoString →
    List GoString
  | _, [] => []
  | i, label :: todo => (name ++ labelIdent u caser i label) :: labelIdents u caser name (i + 1) todo

/-- The ASCII letters, as `unicode.IsLetter` sees them. -/
def isAsciiLetter (r : Nat) : Bool :=
  decide ((65 ≤ r ∧ r ≤ 90) ∨ (97 ≤ r ∧ r ≤ 122))

/-- Tables that agree with Go package `unicode` on ASCII: the letters `A-Z` and
`a-z`, the digits `0-9`. -/
def asciiUnicode : Unicode :=
  ⟨isAsciiLetter, fun r => decide (48 ≤ r ∧ r ≤ 57)⟩

/-- A caser that keeps a name with an ASCII letter in it as it is, and gives
the empty identifier for any other name. -/
def lettersCaser : Caser :=
  ⟨fun s => if s.any isAsciiLetter then s else []⟩

/-! ## Lemmas on the string primitives -/

theorem GoType.QualifyRel_eq (t : GoType) (p : GoString) : t.QualifyRel p = qualifyRel t p := by
  cases t <;> rfl

theorem indexByteFrom_nonneg_iff (c : Nat) (s : GoString) (i : Nat) :
    0 ≤ indexByteFrom c s i ↔ c ∈ s := by
  induction s generalizing i with
  | nil => simp [indexByteFrom]
  | cons b rest ih =>
    unfold indexByteFrom
    by_cases hb : b = c
    · simp [hb]
    · have hne : ¬ c = b := fun h => hb h.symm
      simp [hb, hne, ih]

theorem ContainsRune_dot (s : GoString) : ContainsRune s 46 = true ↔ 46 ∈ s := by
  simp [ContainsRune, IndexByte, indexByteFrom_nonneg_iff]

theorem lastIndexByteBelow_eq (s : GoString) (c k : Nat) (hk : s[k]? = some c) (n : Nat)
    (hkn : k < n) (hlast : ∀ j, k < j → j < n → s[j]? ≠ some c) :
    lastIndexByteBelow s c n = (k : Int) := by
  induction n with
  | zero => omega
  | succ n ih =>
    unfold lastIndexByteBelow
    by_cases hn : n = k
    · subst hn
      simp [hk]
    · have hlt : k < n := by omega
      rw [if_neg (hlast n hlt (by omega))]
      exact ih hlt (fun j h1 h2 => hlast j h1 (by omega))

theorem LastIndexByte_append (pre name : GoString) (c : Nat) (hname : c ∉ name) :
    LastIndexByte (pre ++ c :: name) c = (pre.length : Int) := by
  unfold LastIndexByte
  apply lastIndexByteBelow_eq _ _ pre.length
  · rw [List.getElem?_append_right (Nat.le_refl _)]
    simp
  · simp
  · intro j h1 _ hj
    rw [List.getElem?_append_right (by omega)] at hj
    obtain ⟨m, hm⟩ : ∃ m, j - pre.length = m + 1 := ⟨j - pre.length - 1, by omega⟩
    rw [hm, List.getElem?_cons_succ] at hj
    exact hname (List.getElem?_mem hj)

theorem exists_last_split (c : Nat) (s : GoString) (h : c ∈ s) :
    ∃ pre name, s = pre ++ c :: name ∧ c ∉ name := by
  induction s with
  | nil => simp at h
  | cons b rest ih =>
    by_cases hr : c ∈ rest
    · obtain ⟨pre, name, hs, hn⟩ := ih hr
      exact ⟨b :: pre, name, by simp [hs], hn⟩
    · have hb : c = b := by
        rcases List.mem_cons.mp h with h | h
        · exact h
        · exact absurd h hr
      exact ⟨[], rest, by simp [hb], hr⟩

theorem splitLoop_append (sep : Nat) (seg rest cur : GoString) (hseg : sep ∉ seg) :
    splitLoop sep (seg ++ rest) cur = splitLoop sep rest (cur ++ seg) := by
  induction seg generalizing cur with
  | nil => simp
  | cons b seg ih =>
    have hb : ¬ b = sep := fun h => hseg (by simp [h])
    have hs : sep ∉ seg := fun h => hseg (List.mem_cons_of_mem _ h)
    show splitLoop sep (b :: (seg ++ rest)) cur = _
    rw [splitLoop, if_neg hb, ih _ hs]
    simp

theorem splitLoop_joinPath (sep : Nat) (seg : GoString) (segs : List GoString) (cur : GoString)
    (hfree : ∀ s ∈ seg :: segs, sep ∉ s) :
    splitLoop sep ([sep].intercalate (seg :: segs)) cur = (cur ++ seg) :: segs := by
  induction segs generalizing seg cur with
  | nil =>
    have h := splitLoop_append sep seg [] cur (hfree seg (by simp))
    simpa [List.intercalate, splitLoop] using h
  | cons next segs ih =>
    have hstep : [sep].intercalate (seg :: next :: segs)
        = seg ++ sep :: [sep].intercalate (next :: segs) := by
      simp [List.intercalate]
    rw [hstep, splitLoop_append sep seg _ cur (hfree seg (by simp))]
    simp only [splitLoop, if_true]
    rw [ih next [] (fun s hs => hfree s (List.mem_cons_of_mem _ hs))]
    simp

/-- Splitting the path built from `/`-free segments gives the segments back. -/
theorem Split_joinPath (segs : List GoString) (hne : segs ≠ [])
    (hfree : ∀ s ∈ segs, 47 ∉ s) : Split (joinPath segs) 47 = segs := by
  cases segs with
  | nil => exact absurd rfl hne
  | cons seg segs =>
    unfold Split joinPath
    rw [splitLoop_joinPath 47 seg segs [] hfree]
    simp

theorem splitLoop_ne_nil (sep : Nat) (s cur : GoString) : splitLoop sep s cur ≠ [] := by
  induction s generalizing cur with
  | nil => simp [splitLoop]
  | cons b rest ih =>
    unfold splitLoop
    split
    · simp
    · exact ih _

theorem splitLoop_intercalate (sep : Nat) (s cur : GoString) :
    [sep].intercalate (splitLoop sep s cur) = cur ++ s := by
  induction s generalizing cur with
  | nil => simp [splitLoop, List.intercalate]
  | cons b rest ih =>
    unfold splitLoop
    by_cases hb : b = sep
    · rw [if_pos hb]
      obtain ⟨seg, segs, hsegs⟩ := List.exists_cons_of_ne_nil (splitLoop_ne_nil sep rest [])
      have hrest := ih []
      rw [hsegs] at hrest ⊢
      have hstep : [sep].intercalate (cur :: seg :: segs)
          = cur ++ sep :: [sep].intercalate (seg :: segs) := by
        simp [List.intercalate]
      rw [hstep, hrest, hb]
      simp
    · rw [if_neg hb, ih]
      simp

theorem splitLoop_free (sep : Nat) (s cur : GoString) (hcur : sep ∉ cur) :
    ∀ seg ∈ splitLoop sep s cur, sep ∉ seg := by
  induction s generalizing cur with
  | nil =>
    intro seg hseg
    simp only [splitLoop, List.mem_singleton] at hseg
    rw [hseg]
    exact hcur
  | cons b rest ih =>
    intro seg hseg
    unfold splitLoop at hseg
    by_cases hb : b = sep
    · rw [if_pos hb] at hseg
      rcases List.mem_cons.mp hseg with h | h
      · rw [h]
        exact hcur
      · exact ih [] (by simp) seg h
    · rw [if_neg hb] at hseg
      refine ih (cur ++ [b]) ?_ seg hseg
      intro hmem
      rcases List.mem_append.mp hmem with h | h
      · exact hcur h
      · exact hb (List.mem_singleton.mp h).symm

/-- Every path is the join of the parts `bytes.Split` gives for it, and no part
contains a `/`. -/
theorem joinPath_Split (s : GoString) :
    joinPath (Split s 47) = s ∧ Split s 47 ≠ [] ∧ ∀ seg ∈ Split s 47, 47 ∉ seg := by
  refine ⟨?_, splitLoop_ne_nil 47 s [], splitLoop_free 47 s [] (by simp)⟩
  unfold joinPath Split
  rw [splitLoop_intercalate]
  simp

theorem majorVersionRegexpMatch_iff (seg : GoString) :
    majorVersionRegexpMatch seg = true ↔ IsMajorVersion seg := by
  cases seg with
  | nil => simp [majorVersionRegexpMatch, IsMajorVersion]
  | cons b rest =>
    simp only [majorVersionRegexpMatch, IsMajorVersion, Bool.and_eq_true, beq_iff_eq,
      Bool.not_eq_true', List.isEmpty_eq_false, List.all_eq_true, decide_eq_true_eq]
    constructor
    · rintro ⟨⟨hb, hne⟩, hall⟩
      exact ⟨rest, hne, hall, by rw [hb]⟩
    · rintro ⟨ds, hne, hall, heq⟩
      obtain ⟨hb, hrest⟩ := List.cons.inj heq
      subst hrest
      exact ⟨⟨hb, hne⟩, hall⟩

theorem HasPrefix_v_of_match (seg : GoString) (h : majorVersionRegexpMatch seg = true) :
    HasPrefix seg [118] = true := by
  cases seg with
  | nil => simp [majorVersionRegexpMatch] at h
  | cons b rest =>
    simp only [majorVersionRegexpMatch, Bool.and_eq_true, beq_iff_eq] at h
    simp [HasPrefix, h.1.1]

/-- What `ExtractShortPackage` returns, in terms of the parts of the path. -/
theorem ExtractShortPackage_eq (pkgPath : GoString) :
    ExtractShortPackage pkgPath =
      match index (Split pkgPath 47) (((Split pkgPath 47).length : Int) - 1) with
      | none => none
      | some shortPkg =>
        if majorVersionRegexpMatch shortPkg = true then
          index (Split pkgPath 47) (((Split pkgPath 47).length : Int) - 2)
        else some shortPkg := by
  unfold ExtractShortPackage
  dsimp only
  generalize index (Split pkgPath 47) (((Split pkgPath 47).length : Int) - 1) = last
  cases last with
  | none => rfl
  | some shortPkg =>
    by_cases hm : majorVersionRegexpMatch shortPkg = true
    · simp [hm, HasPrefix_v_of_match shortPkg hm]
    · simp [hm]

theorem index_last_two {α : Type} (xs : List α) (a b : α) :
    index (xs ++ [a, b]) (((xs ++ [a, b]).length : Int) - 1) = some b ∧
    index (xs ++ [a, b]) (((xs ++ [a, b]).length : Int) - 2) = some a := by
  have h1 : (((xs ++ [a, b]).length : Int) - 1) = ((xs.length + 1 : Nat) : Int) := by
    simp only [List.length_append, List.length_cons, List.length_nil]
    push_cast
    omega
  have h2 : (((xs ++ [a, b]).length : Int) - 2) = ((xs.length : Nat) : Int) := by
    simp only [List.length_append, List.length_cons, List.length_nil]
    push_cast
    omega
  rw [h1, h2]
  unfold index
  constructor
  · rw [if_pos (Int.ofNat_nonneg _), Int.toNat_ofNat,
      List.getElem?_append_right (Nat.le_succ _)]
    simp
  · rw [if_pos (Int.ofNat_nonneg _), Int.toNat_ofNat,
      List.getElem?_append_right (Nat.le_refl _)]
    simp

theorem sliceFrom_append (pre name : GoString) (c : Nat) :
    sliceFrom (pre ++ c :: name) ((pre.length : Int) + 1) = some name := by
  have hlo : ((pre.length : Int) + 1).toNat = pre.length + 1 := by omega
  have hb : (0 : Int) ≤ (pre.length : Int) + 1 ∧
      (pre.length : Int) + 1 ≤ ((pre ++ c :: name).length : Int) := by
    simp only [List.length_append, List.length_cons]
    push_cast
    omega
  rw [sliceFrom, if_pos hb, hlo, List.drop_append]
  rfl

theorem sliceTo_append (pre name : GoString) (c : Nat) :
    sliceTo (pre ++ c :: name) (pre.length : Int) = some pre := by
  have hb : (0 : Int) ≤ (pre.length : Int) ∧
      (pre.length : Int) ≤ ((pre ++ c :: name).length : Int) := by
    simp only [List.length_append, List.length_cons]
    push_cast
    omega
  rw [sliceTo, if_pos hb, Int.toNat_ofNat]
  simp

/-- What `NewOpaqueType` does with a string split at its last dot. -/
theorem NewOpaqueType_append (pkgPath name : GoString) (hname : 46 ∉ name) :
    NewOpaqueType (pkgPath ++ 46 :: name) =
      (ExtractShortPackage pkgPath).map
        (fun shortPkg => { PkgPath := pkgPath, Pkg := shortPkg, Name := name }) := by
  have hc : ContainsRune (pkgPath ++ 46 :: name) 46 = true := by
    rw [ContainsRune_dot]
    simp
  unfold NewOpaqueType
  simp only [hc, Bool.not_true, Bool.false_eq_true, if_false]
  rw [LastIndexByte_append pkgPath name 46 hname, sliceFrom_append, sliceTo_append]
  dsimp only
  cases ExtractShortPackage pkgPath <;> rfl

/-! ## Lemmas on runes -/

theorem decodeRune_encodeRune (r : Nat) (hr : ValidRune r) (rest : GoString) :
    decodeRune (encodeRune r ++ rest) = (r, (encodeRune r).length) := by
  obtain ⟨hmax, hsur⟩ := hr
  unfold encodeRune
  by_cases h1 : r ≤ 0x7F
  · rw [if_pos h1]
    have : r < 0x80 := by omega
    simp [decodeRune, this]
  · rw [if_neg h1]
    by_cases h2 : r ≤ 0x7FF
    · rw [if_pos h2]
      have a1 : ¬ (0xC0 + r / 64 < 0x80) := by omega
      have a2 : 0xC0 ≤ 0xC0 + r / 64 ∧ 0xC0 + r / 64 < 0xE0 := by omega
      have a3 : 0x80 ≤ 0x80 + r % 64 ∧ 0x80 + r % 64 ≤ 0xBF := by omega
      have a4 : (0xC0 + r / 64) % 32 * 64 + (0x80 + r % 64) % 64 = r := by omega
      have a5 : 0x7F < r := by omega
      simp only [List.cons_append, List.nil_append, decodeRune, if_neg a1, if_pos a2, if_pos a3,
        a4, if_pos a5, List.length_cons, List.length_nil]
    · rw [if_neg h2]
      have h3 : ¬ (0x10FFFF < r ∨ (0xD800 ≤ r ∧ r ≤ 0xDFFF)) := by
        intro h
        rcases h with h | h
        · omega
        · exact hsur h
      rw [if_neg h3]
      by_cases h4 : r ≤ 0xFFFF
      · rw [if_pos h4]
        have a1 : ¬ (0xE0 + r / 4096 < 0x80) := by omega
        have a2 : ¬ (0xC0 ≤ 0xE0 + r / 4096 ∧ 0xE0 + r / 4096 < 0xE0) := by omega
        have a3 : 0xE0 ≤ 0xE0 + r / 4096 ∧ 0xE0 + r / 4096 < 0xF0 := by omega
        have a4 : (0x80 ≤ 0x80 + r / 64 % 64 ∧ 0x80 + r / 64 % 64 ≤ 0xBF) ∧
            (0x80 ≤ 0x80 + r % 64 ∧ 0x80 + r % 64 ≤ 0xBF) := by omega
        have a5 : (0xE0 + r / 4096) % 16 * 4096 + (0x80 + r / 64 % 64) % 64 * 64 +
            (0x80 + r % 64) % 64 = r := by omega
        have a6 : 0x7FF < r ∧ ¬ (0xD800 ≤ r ∧ r ≤ 0xDFFF) := ⟨by omega, hsur⟩
        simp only [List.cons_append, List.nil_append, decodeRune, if_neg a1, if_neg a2, if_pos a3,
          if_pos a4, a5, if_pos a6, List.length_cons, List.length_nil]
      · rw [if_neg h4]
        have a1 : ¬ (0xF0 + r / 262144 < 0x80) := by omega
        have a2 : ¬ (0xC0 ≤ 0xF0 + r / 262144 ∧ 0xF0 + r / 262144 < 0xE0) := by omega
        have a3 : ¬ (0xE0 ≤ 0xF0 + r / 262144 ∧ 0xF0 + r / 262144 < 0xF0) := by omega
        have a4 : 0xF0 ≤ 0xF0 + r / 262144 ∧ 0xF0 + r / 262144 < 0xF8 := by omega
        have a5 : (0x80 ≤ 0x80 + r / 4096 % 64 ∧ 0x80 + r / 4096 % 64 ≤ 0xBF) ∧
            (0x80 ≤ 0x80 + r / 64 % 64 ∧ 0x80 + r / 64 % 64 ≤ 0xBF) ∧
            (0x80 ≤ 0x80 + r % 64 ∧ 0x80 + r % 64 ≤ 0xBF) := by omega
        have a6 : (0xF0 + r / 262144) % 8 * 262144 + (0x80 + r / 4096 % 64) % 64 * 4096 +
            (0x80 + r / 64 % 64) % 64 * 64 + (0x80 + r % 64) % 64 = r := by omega
        have a7 : 0xFFFF < r ∧ r ≤ 0x10FFFF := by omega
        simp only [List.cons_append, List.nil_append, decodeRune, if_neg a1, if_neg a2, if_neg a3,
          if_pos a4, if_pos a5, a6, if_pos a7, List.length_cons, List.length_nil]

theorem encodeRune_ne_nil (r : Nat) : encodeRune r ≠ [] := by
  unfold encodeRune
  repeat' split
  all_goals simp

theorem decodeRune_valid (s : GoString) : ValidRune (decodeRune s).1 := by
  have herr : ValidRune RuneError := by
    unfold ValidRune RuneError
    omega
  unfold decodeRune
  repeat' split
  all_goals first
    | exact herr
    | (unfold ValidRune; dsimp only; omega)
    | (dsimp only
       split
       · unfold ValidRune
         dsimp only
         omega
       · exact herr)

theorem rangeLoop_skip (pre rest : GoString) :
    rangeLoop pre.length (pre ++ rest) = rangeLoop 0 rest := by
  induction pre with
  | nil => rfl
  | cons b pre ih =>
    simp only [List.length_cons, List.cons_append, rangeLoop]
    exact ih

theorem runes_encodeRune_append (r : Nat) (hr : ValidRune r) (rest : GoString) :
    runes (encodeRune r ++ rest) = r :: runes rest := by
  have hdec := decodeRune_encodeRune r hr rest
  obtain ⟨b, tail, htail⟩ := List.exists_cons_of_ne_nil (encodeRune_ne_nil r)
  rw [htail] at hdec ⊢
  unfold runes
  rw [List.cons_append] at hdec ⊢
  rw [rangeLoop, hdec]
  simp only [List.length_cons, Nat.add_sub_cancel]
  rw [rangeLoop_skip]

/-- Decoding the encoding of valid runes gives the runes back. -/
theorem runes_flatMap_encodeRune (rs : List Nat) (hrs : ∀ r ∈ rs, ValidRune r) :
    runes (rs.flatMap encodeRune) = rs := by
  induction rs with
  | nil => rfl
  | cons r rs ih =>
    rw [List.flatMap_cons, runes_encodeRune_append r (hrs r (by simp)),
      ih (fun r2 h2 => hrs r2 (List.mem_cons_of_mem _ h2))]

theorem rangeLoop_valid (s : GoString) (skip : Nat) : ∀ r ∈ rangeLoop skip s, ValidRune r := by
  induction s generalizing skip with
  | nil => simp [rangeLoop]
  | cons b rest ih =>
    cases skip with
    | zero =>
      intro r hr
      rw [rangeLoop] at hr
      rcases List.mem_cons.mp hr with h | h
      · rw [h]
        exact decodeRune_valid _
      · exact ih _ r h
    | succ k =>
      intro r hr
      rw [rangeLoop] at hr
      exact ih _ r hr

/-- Every rune that `range` yields is a valid rune. -/
theorem runes_valid (s : GoString) : ∀ r ∈ runes s, ValidRune r :=
  rangeLoop_valid s 0

/-- The runes of an ASCII string are its bytes. -/
theorem runes_ascii (s : GoString) (hs : ∀ b ∈ s, b < 0x80) : runes s = s := by
  unfold runes
  induction s with
  | nil => rfl
  | cons b rest ih =>
    have hb : b < 0x80 := hs b (by simp)
    rw [rangeLoop]
    simp only [decodeRune, if_pos hb, Nat.sub_self]
    rw [ih (fun b2 h2 => hs b2 (List.mem_cons_of_mem _ h2))]

theorem fallbackLoop_eq (u : Unicode) (rs : List Nat) (sb : GoString) :
    fallbackLoop u rs sb = sb ++
      (rs.filter (fun ch => u.IsLetter ch = true ∨ ch = 95 ∨ u.IsDigit ch = true)).flatMap
        encodeRune := by
  induction rs generalizing sb with
  | nil => simp [fallbackLoop]
  | cons ch rest ih =>
    unfold fallbackLoop
    by_cases hk : (u.IsLetter ch || ch == 95 || u.IsDigit ch) = true
    · have hk2 : u.IsLetter ch = true ∨ ch = 95 ∨ u.IsDigit ch = true := by
        simpa [or_assoc] using hk
      rw [if_pos hk, ih, List.filter_cons_of_pos (by simpa using hk2)]
      simp
    · have hk2 : ¬ (u.IsLetter ch = true ∨ ch = 95 ∨ u.IsDigit ch = true) := by
        simpa [or_assoc] using hk
      rw [if_neg hk, ih, List.filter_cons_of_neg (by simpa using hk2)]

/-- `ChooseFallbackName` is the prefix followed by the identifier characters of
the name. -/
theorem ChooseFallbackName_eq (u : Unicode) (pgName pfx : GoString) :
    ChooseFallbackName u pgName pfx = pfx ++ identChars u pgName := by
  simp [ChooseFallbackName, identChars, fallbackLoop_eq]

/-- On the UTF-8 text of the valid runes `rs`, the identifier characters are the
text of the runes of `rs` that are letters, digits or underscores. -/
theorem identChars_flatMap_encodeRune (u : Unicode) (rs : List Nat)
    (hrs : ∀ r ∈ rs, ValidRune r) :
    identChars u (rs.flatMap encodeRune) =
      (rs.filter (fun ch => u.IsLetter ch = true ∨ ch = 95 ∨ u.IsDigit ch = true)).flatMap
        encodeRune := by
  rw [identChars, runes_flatMap_encodeRune rs hrs]

theorem take_succ_set {α : Type} (xs : List α) (i : Nat) (v : α) (h : i < xs.length) :
    (xs.set i v).take (i + 1) = xs.take i ++ [v] := by
  induction xs generalizing i with
  | nil => simp at h
  | cons x xs ih =>
    cases i with
    | zero => simp
    | succ i =>
      have hi : i < xs.length := by simpa using h
      simp [ih i hi]

/-- Invariant of the loop of `NewEnumType`: with the labels `done` visited, the
first `done.length` entries of both slices are final, and the loop ends with
the identifiers and the values of all labels. -/
theorem labelLoop_eq (u : Unicode) (caser : Caser) (pgEnum : PgEnumType) (name : GoString)
    (todo done labels values : List GoString) (hlabels : pgEnum.Labels = done ++ todo)
    (hl : labels.length = pgEnum.Labels.length) (hv : values.length = pgEnum.Labels.length) :
    labelLoop u caser pgEnum name done.length todo (labels, values) =
      some (labels.take done.length ++ labelIdents u caser name done.length todo,
        values.take done.length ++ todo) := by
  induction todo generalizing done labels values with
  | nil =>
    have hd : done.length = pgEnum.Labels.length := by simp [hlabels]
    rw [labelLoop, labelIdents, List.take_of_length_le (by omega),
      List.take_of_length_le (by omega)]
    simp
  | cons label todo ih =>
    have hlen : done.length < pgEnum.Labels.length := by simp [hlabels]
    have hidx : index pgEnum.Labels (done.length : Int) = some label := by
      rw [index, if_pos (Int.ofNat_nonneg _), Int.toNat_ofNat, hlabels,
        List.getElem?_append_right (Nat.le_refl _)]
      simp
    have hnext : pgEnum.Labels = (done ++ [label]) ++ todo := by simp [hlabels]
    have hstep := ih (done ++ [label])
      (labels.set done.length (name ++ labelIdent u caser done.length label))
      (values.set done.length label) hnext (by simp [hl]) (by simp [hv])
    rw [List.length_append, List.length_singleton, take_succ_set _ _ _ (by omega),
      take_succ_set _ _ _ (by omega)] at hstep
    have hident : (if caser.ToUpperGoIdent label = [] then
          ChooseFallbackName u label (lit "UnnamedLabel" ++ Itoa done.length)
        else caser.ToUpperGoIdent label) = labelIdent u caser done.length label := by
      rw [labelIdent, ChooseFallbackName_eq]
    unfold labelLoop
    simp only [setIndex, hl, hv, hlen, if_true, hidx]
    rw [hident, hstep]
    simp [labelIdents]

/-- What `NewEnumType` returns: it panics exactly when `ExtractShortPackage`
does, and returns the type built from the name, the label identifiers and the
labels otherwise. -/
theorem NewEnumType_eq (u : Unicode) (pkgPath : GoString) (pgEnum : PgEnumType) (caser : Caser) :
    NewEnumType u pkgPath pgEnum caser =
      (ExtractShortPackage pkgPath).map (fun pkg =>
        { PgEnum := pgEnum, PkgPath := pkgPath, Pkg := pkg,
          Name := if caser.ToUpperGoIdent pgEnum.Name = [] then
              lit "UnnamedEnum" ++ identChars u pgEnum.Name
            else caser.ToUpperGoIdent pgEnum.Name,
          Labels := labelIdents u caser
            (if caser.ToUpperGoIdent pgEnum.Name = [] then
              lit "UnnamedEnum" ++ identChars u pgEnum.Name
            else caser.ToUpperGoIdent pgEnum.Name) 0 pgEnum.Labels,
          Values := pgEnum.Labels }) := by
  have hloop := fun name => labelLoop_eq u caser pgEnum name pgEnum.Labels []
    (List.replicate pgEnum.Labels.length []) (List.replicate pgEnum.Labels.length [])
    (by simp) (by simp) (by simp)
  simp only [List.length_nil, List.take_zero, List.nil_append] at hloop
  unfold NewEnumType
  simp only [hloop, ChooseFallbackName_eq]
  cases ExtractShortPackage pkgPath <;> rfl

theorem labelIdents_getElem? (u : Unicode) (caser : Caser) (name : GoString) (k : Nat)
    (todo : List GoString) (i : Nat) :
    (labelIdents u caser name k todo)[i]? =
      todo[i]?.map (fun label => name ++ labelIdent u caser (k + i) label) := by
  induction todo generalizing k i with
  | nil => simp [labelIdents]
  | cons label todo ih =>
    cases i with
    | zero => simp [labelIdents]
    | succ i =>
      simp only [labelIdents, List.getElem?_cons_succ, ih]
      have : k + 1 + i = k + (i + 1) := by omega
      rw [this]

theorem labelIdents_length (u : Unicode) (caser : Caser) (name : GoString) (k : Nat)
    (todo : List GoString) : (labelIdents u caser name k todo).length = todo.length := by
  induction todo generalizing k with
  | nil => rfl
  | cons label todo ih => simp [labelIdents, ih]

/-! ## Qualification relative to a package -/

/-- C1: for an `EnumType`, `OpaqueType` or `CompositeType` `t` and a package path
`p`, if `p` is the package of `t`, or `t` has no package (a builtin), then
`t.QualifyRel(p)` is exactly `t.BaseName()`. -/
theorem QualifyRel_own_package_or_builtin (t : GoType) (p : GoString)
    (h : p = t.Import ∨ t.Import = []) : t.QualifyRel p = t.BaseName := by
  rw [GoType.QualifyRel_eq]
  unfold qualifyRel
  rcases h with h | h
  · simp [h]
  · simp [h]

theorem QualifyRel_own_package_or_builtin_witness :
    (lit "example.com/foo" = (GoType.ofOpaque
        ⟨lit "example.com/foo", lit "foo", lit "Bar"⟩).Import ∨
      (GoType.ofOpaque ⟨lit "example.com/foo", lit "foo", lit "Bar"⟩).Import = []) ∧
    (GoType.ofOpaque ⟨lit "example.com/foo", lit "foo", lit "Bar"⟩).QualifyRel
        (lit "example.com/foo") =
      (GoType.ofOpaque ⟨lit "example.com/foo", lit "foo", lit "Bar"⟩).BaseName :=
  ⟨Or.inl (by decide), QualifyRel_own_package_or_builtin _ _ (Or.inl (by decide))⟩

/-- C2 as stated fails: `NewOpaqueType` on `a/.B` gives a type with package path
`a/` and an empty short package, and its `QualifyRel` relative to another
package is the bare `B`, not `.B`. -/
theorem QualifyRel_empty_short_package_counterexample :
    NewOpaqueType (lit "a/.B") = some ⟨lit "a/", [], lit "B"⟩ ∧
    (GoType.ofOpaque ⟨lit "a/", [], lit "B"⟩).Import ≠ [] ∧
    lit "x" ≠ (GoType.ofOpaque ⟨lit "a/", [], lit "B"⟩).Import ∧
    (GoType.ofOpaque ⟨lit "a/", [], lit "B"⟩).QualifyRel (lit "x") = lit "B" ∧
    (GoType.ofOpaque ⟨lit "a/", [], lit "B"⟩).QualifyRel (lit "x") ≠
      (GoType.ofOpaque ⟨lit "a/", [], lit "B"⟩).Package ++ lit "." ++
        (GoType.ofOpaque ⟨lit "a/", [], lit "B"⟩).BaseName := by
  decide

/-- C2, amended: for an `EnumType`, `OpaqueType` or `CompositeType` `t` whose
package path `t.Import()` is non-empty and a package path `p` different from
it, `t.QualifyRel(p)` is `t.Package()`, a dot and `t.BaseName()` when the short
package `t.Package()` is non-empty, and the bare `t.BaseName()` when it is
empty. -/
theorem QualifyRel_other_package (t : GoType) (p : GoString)
    (himp : t.Import ≠ []) (hp : p ≠ t.Import) :
    (t.Package ≠ [] → t.QualifyRel p = t.Package ++ lit "." ++ t.BaseName) ∧
    (t.Package = [] → t.QualifyRel p = t.BaseName) := by
  have hp2 : ¬ t.Import = p := fun h => hp h.symm
  have hdot : lit "." = [46] := by decide
  rw [GoType.QualifyRel_eq]
  unfold qualifyRel
  constructor
  · intro hpkg
    simp [himp, hp2, hpkg, hdot]
  · intro hpkg
    simp [hpkg]

theorem QualifyRel_other_package_witness :
    (GoType.ofOpaque ⟨lit "example.com/foo", lit "foo", lit "Bar"⟩).Import ≠ [] ∧
    lit "example.com/qux" ≠
      (GoType.ofOpaque ⟨lit "example.com/foo", lit "foo", lit "Bar"⟩).Import ∧
    (GoType.ofOpaque ⟨lit "example.com/foo", lit "foo", lit "Bar"⟩).Package ≠ [] ∧
    (GoType.ofOpaque ⟨lit "example.com/foo", lit "foo", lit "Bar"⟩).QualifyRel
        (lit "example.com/qux") = lit "foo.Bar" :=
  ⟨by decide, by decide, by decide,
    ((QualifyRel_other_package (GoType.ofOpaque ⟨lit "example.com/foo", lit "foo", lit "Bar"⟩)
      (lit "example.com/qux") (by decide) (by decide)).1 (by decide)).trans (by decide)⟩

/-! ## Short package names and opaque types -/

/-- C3: for a package path with at least two `/`-separated segments,
`ExtractShortPackage` returns the last segment, except when the last segment is
the letter `v` followed by one or more ASCII digits and nothing else, in which
case it returns the segment before it. -/
theorem ExtractShortPackage_two_segments (segs : List GoString) (prev last : GoString)
    (hfree : ∀ s ∈ segs ++ [prev, last], 47 ∉ s) :
    (IsMajorVersion last →
      ExtractShortPackage (joinPath (segs ++ [prev, last])) = some prev) ∧
    (¬ IsMajorVersion last →
      ExtractShortPackage (joinPath (segs ++ [prev, last])) = some last) := by
  have hsplit : Split (joinPath (segs ++ [prev, last])) 47 = segs ++ [prev, last] :=
    Split_joinPath _ (by simp) hfree
  have hidx := index_last_two segs prev last
  rw [ExtractShortPackage_eq, hsplit, hidx.1]
  dsimp only
  constructor
  · intro hv
    rw [if_pos ((majorVersionRegexpMatch_iff last).mpr hv)]
    exact hidx.2
  · intro hv
    rw [if_neg (fun h => hv ((majorVersionRegexpMatch_iff last).mp h))]

theorem ExtractShortPackage_two_segments_witness :
    (∀ s ∈ [lit "github.com", lit "jschaf"] ++ [lit "pggen", lit "generate"], 47 ∉ s) ∧
    (∀ s ∈ [lit "github.com", lit "jschaf", lit "pggen"] ++ [lit "foo", lit "v2"], 47 ∉ s) ∧
    ¬ IsMajorVersion (lit "generate") ∧ IsMajorVersion (lit "v2") ∧
    ExtractShortPackage (lit "github.com/jschaf/pggen/generate") = some (lit "generate") ∧
    ExtractShortPackage (lit "github.com/jschaf/pggen/foo/v2") = some (lit "foo") :=
  ⟨by decide, by decide,
    fun h => absurd ((majorVersionRegexpMatch_iff _).mpr h) (by decide),
    (majorVersionRegexpMatch_iff _).mp (by decide),
    (ExtractShortPackage_two_segments [lit "github.com", lit "jschaf"] (lit "pggen")
      (lit "generate") (by decide)).2
      (fun h => absurd ((majorVersionRegexpMatch_iff _).mpr h) (by decide)),
    (ExtractShortPackage_two_segments [lit "github.com", lit "jschaf", lit "pggen"] (lit "foo")
      (lit "v2") (by decide)).1 ((majorVersionRegexpMatch_iff _).mp (by decide))⟩

/-- C4: for a string `s` without a dot, `NewOpaqueType(s)` returns an
`OpaqueType` whose `Name` is `s` and whose `PkgPath` and `Pkg` are empty, so
that `QualifyRel(p)` on the result is `s` for every package path `p`. -/
theorem NewOpaqueType_builtin (s : GoString) (hdot : 46 ∉ s) :
    ∃ o : OpaqueType, NewOpaqueType s = some o ∧ o.Name = s ∧ o.PkgPath = [] ∧ o.Pkg = [] ∧
      ∀ p : GoString, o.QualifyRel p = s ∧ (GoType.ofOpaque o).QualifyRel p = s := by
  have hc : ContainsRune s 46 = false := by
    cases h : ContainsRune s 46 with
    | false => rfl
    | true => exact absurd ((ContainsRune_dot s).mp h) hdot
  refine ⟨{ Name := s }, ?_, rfl, rfl, rfl, ?_⟩
  · simp [NewOpaqueType, hc]
  · intro p
    simp [GoType.QualifyRel, OpaqueType.QualifyRel, qualifyRel, GoType.Import, GoType.BaseName,
      OpaqueType.Import, OpaqueType.BaseName]

theorem NewOpaqueType_builtin_witness :
    46 ∉ lit "string" ∧
    ∃ o : OpaqueType, NewOpaqueType (lit "string") = some o ∧ o.Name = lit "string" ∧
      o.PkgPath = [] ∧ o.Pkg = [] ∧
      ∀ p : GoString, o.QualifyRel p = lit "string" ∧
        (GoType.ofOpaque o).QualifyRel p = lit "string" :=
  ⟨by decide, NewOpaqueType_builtin (lit "string") (by decide)⟩

/-- C5: for a string `s` with at least one dot on which `NewOpaqueType`
returns, the result splits `s` at its last dot: `Name` has no dot, `PkgPath`,
a dot and `Name` make up `s`, and `Pkg` is `ExtractShortPackage(PkgPath)`.
`NewOpaqueType` returns on `s` exactly when `ExtractShortPackage` returns on
what precedes the last dot. For `github.com/jschaf/pggen.GenerateOpts` the
result has `PkgPath` `github.com/jschaf/pggen`, `Pkg` `pggen` and `Name`
`GenerateOpts`. -/
theorem NewOpaqueType_qualified (s : GoString) (hdot : 46 ∈ s) :
    (∀ o : OpaqueType, NewOpaqueType s = some o →
      46 ∉ o.Name ∧ o.PkgPath ++ lit "." ++ o.Name = s ∧
      ExtractShortPackage o.PkgPath = some o.Pkg) ∧
    (∃ pkgPath name : GoString, s = pkgPath ++ lit "." ++ name ∧ 46 ∉ name ∧
      ((NewOpaqueType s).isSome ↔ (ExtractShortPackage pkgPath).isSome)) ∧
    NewOpaqueType (lit "github.com/jschaf/pggen.GenerateOpts") =
      some ⟨lit "github.com/jschaf/pggen", lit "pggen", lit "GenerateOpts"⟩ := by
  have hlit : lit "." = [46] := by decide
  obtain ⟨pkgPath, name, hs, hname⟩ := exists_last_split 46 s hdot
  have hnew := NewOpaqueType_append pkgPath name hname
  rw [← hs] at hnew
  refine ⟨?_, ⟨pkgPath, name, by simp [hs, hlit], hname, by simp [hnew]⟩, by decide⟩
  intro o ho
  rw [hnew] at ho
  cases hpkg : ExtractShortPackage pkgPath with
  | none => simp [hpkg] at ho
  | some shortPkg =>
    rw [hpkg] at ho
    simp only [Option.map_some', Option.some.injEq] at ho
    subst ho
    exact ⟨hname, by simp [hs, hlit], hpkg⟩

theorem NewOpaqueType_qualified_witness :
    46 ∈ lit "example.com/foo/v2.Bar" ∧
    NewOpaqueType (lit "example.com/foo/v2.Bar") =
      some ⟨lit "example.com/foo/v2", lit "foo", lit "Bar"⟩ ∧
    46 ∉ lit "Bar" ∧ lit "example.com/foo/v2" ++ lit "." ++ lit "Bar" = lit "example.com/foo/v2.Bar" ∧
    ExtractShortPackage (lit "example.com/foo/v2") = some (lit "foo") :=
  ⟨by decide, by decide,
    (NewOpaqueType_qualified (lit "example.com/foo/v2.Bar") (by decide)).1
      ⟨lit "example.com/foo/v2", lit "foo", lit "Bar"⟩ (by decide)⟩

/-! ## Enum types -/

/-- C6: when `NewEnumType` returns, which it does exactly when
`ExtractShortPackage` returns on the package path, the result has as many
`Labels` and as many `Values` as the Postgres enum has labels, `Values` is the
list of Postgres labels, element for element in the same order, and
`Labels[i]` is the Go identifier of the label `Values[i]`. -/
theorem NewEnumType_values (u : Unicode) (pkgPath : GoString) (pgEnum : PgEnumType)
    (caser : Caser) :
    ((NewEnumType u pkgPath pgEnum caser).isSome ↔ (ExtractShortPackage pkgPath).isSome) ∧
    ∀ r : EnumType, NewEnumType u pkgPath pgEnum caser = some r →
      r.Labels.length = pgEnum.Labels.length ∧ r.Values.length = pgEnum.Labels.length ∧
      r.Values = pgEnum.Labels ∧ (∀ i : Nat, r.Values[i]? = pgEnum.Labels[i]?) ∧
      ∀ i : Nat, r.Labels[i]? =
        r.Values[i]?.map (fun label => r.Name ++ labelIdent u caser i label) := by
  rw [NewEnumType_eq]
  refine ⟨by simp, ?_⟩
  intro r hr
  cases hpkg : ExtractShortPackage pkgPath with
  | none => simp [hpkg] at hr
  | some pkg =>
    rw [hpkg] at hr
    simp only [Option.map_some', Option.some.injEq] at hr
    subst hr
    refine ⟨labelIdents_length _ _ _ _ _, rfl, rfl, fun _ => rfl, fun i => ?_⟩
    simp [labelIdents_getElem?]

theorem NewEnumType_values_witness :
    NewEnumType asciiUnicode (lit "example.com/db") ⟨lit "mood", [lit "sad", lit "ok"]⟩
        lettersCaser =
      some ⟨⟨lit "mood", [lit "sad", lit "ok"]⟩, lit "example.com/db", lit "db", lit "mood",
        [lit "moodsad", lit "moodok"], [lit "sad", lit "ok"]⟩ ∧
    [lit "moodsad", lit "moodok"].length = [lit "sad", lit "ok"].length :=
  ⟨by decide,
    ((NewEnumType_values asciiUnicode (lit "example.com/db") ⟨lit "mood", [lit "sad", lit "ok"]⟩
      lettersCaser).2
      ⟨⟨lit "mood", [lit "sad", lit "ok"]⟩, lit "example.com/db", lit "db", lit "mood",
        [lit "moodsad", lit "moodok"], [lit "sad", lit "ok"]⟩ (by decide)).1⟩

/-- C7: the `Name` of the result of `NewEnumType` is
`caser.ToUpperGoIdent(e.Name)` when that is non-empty; when it is empty, the
`Name` is `UnnamedEnum` followed by the characters of `e.Name` that are
letters, digits or underscores, in their original order.  `NewEnumType`
returns exactly when `ExtractShortPackage` returns on the package path. -/
theorem NewEnumType_name (u : Unicode) (pkgPath : GoString) (pgEnum : PgEnumType)
    (caser : Caser) :
    ((NewEnumType u pkgPath pgEnum caser).isSome ↔ (ExtractShortPackage pkgPath).isSome) ∧
    ∀ r : EnumType, NewEnumType u pkgPath pgEnum caser = some r →
      (caser.ToUpperGoIdent pgEnum.Name ≠ [] → r.Name = caser.ToUpperGoIdent pgEnum.Name) ∧
      (caser.ToUpperGoIdent pgEnum.Name = [] →
        r.Name = lit "UnnamedEnum" ++ identChars u pgEnum.Name ∧
        r.Name = ChooseFallbackName u pgEnum.Name (lit "UnnamedEnum")) := by
  rw [NewEnumType_eq]
  refine ⟨by simp, ?_⟩
  intro r hr
  cases hpkg : ExtractShortPackage pkgPath with
  | none => simp [hpkg] at hr
  | some pkg =>
    rw [hpkg] at hr
    simp only [Option.map_some', Option.some.injEq] at hr
    subst hr
    constructor
    · intro hne
      simp [hne]
    · intro he
      simp [he, ChooseFallbackName_eq]

theorem NewEnumType_name_witness :
    NewEnumType asciiUnicode (lit "example.com/db") ⟨lit "1-2_3", [lit "sad"]⟩ lettersCaser =
      some ⟨⟨lit "1-2_3", [lit "sad"]⟩, lit "example.com/db", lit "db", lit "UnnamedEnum12_3",
        [lit "UnnamedEnum12_3sad"], [lit "sad"]⟩ ∧
    lettersCaser.ToUpperGoIdent (lit "1-2_3") = [] ∧
    identChars asciiUnicode (lit "1-2_3") = lit "12_3" ∧
    lit "UnnamedEnum12_3" = lit "UnnamedEnum" ++ identChars asciiUnicode (lit "1-2_3") :=
  ⟨by decide, by decide, by decide,
    (((NewEnumType_name asciiUnicode (lit "example.com/db") ⟨lit "1-2_3", [lit "sad"]⟩
      lettersCaser).2
      ⟨⟨lit "1-2_3", [lit "sad"]⟩, lit "example.com/db", lit "db", lit "UnnamedEnum12_3",
        [lit "UnnamedEnum12_3sad"], [lit "sad"]⟩ (by decide)).2 (by decide)).1⟩

/-- C8: at a position `i` whose label the caser turns into a non-empty
identifier, `Labels[i]` of the result of `NewEnumType` is the `Name` of the
result followed by that identifier.  `NewEnumType` returns exactly when
`ExtractShortPackage` returns on the package path. -/
theorem NewEnumType_label (u : Unicode) (pkgPath : GoString) (pgEnum : PgEnumType)
    (caser : Caser) (i : Nat) (label : GoString) (hlabel : pgEnum.Labels[i]? = some label)
    (hident : caser.ToUpperGoIdent label ≠ []) :
    ((NewEnumType u pkgPath pgEnum caser).isSome ↔ (ExtractShortPackage pkgPath).isSome) ∧
    ∀ r : EnumType, NewEnumType u pkgPath pgEnum caser = some r →
      r.Labels[i]? = some (r.Name ++ caser.ToUpperGoIdent label) := by
  rw [NewEnumType_eq]
  refine ⟨by simp, ?_⟩
  intro r hr
  cases hpkg : ExtractShortPackage pkgPath with
  | none => simp [hpkg] at hr
  | some pkg =>
    rw [hpkg] at hr
    simp only [Option.map_some', Option.some.injEq] at hr
    subst hr
    simp [labelIdents_getElem?, hlabel, labelIdent, hident]

theorem NewEnumType_label_witness :
    [lit "sad", lit "ok"][1]? = some (lit "ok") ∧
    lettersCaser.ToUpperGoIdent (lit "ok") ≠ [] ∧
    NewEnumType asciiUnicode (lit "example.com/db") ⟨lit "mood", [lit "sad", lit "ok"]⟩
        lettersCaser =
      some ⟨⟨lit "mood", [lit "sad", lit "ok"]⟩, lit "example.com/db", lit "db", lit "mood",
        [lit "moodsad", lit "moodok"], [lit "sad", lit "ok"]⟩ ∧
    [lit "moodsad", lit "moodok"][1]? =
      some (lit "mood" ++ lettersCaser.ToUpperGoIdent (lit "ok")) :=
  ⟨by decide, by decide, by decide,
    (NewEnumType_label asciiUnicode (lit "example.com/db") ⟨lit "mood", [lit "sad", lit "ok"]⟩
      lettersCaser 1 (lit "ok") (by decide) (by decide)).2
      ⟨⟨lit "mood", [lit "sad", lit "ok"]⟩, lit "example.com/db", lit "db", lit "mood",
        [lit "moodsad", lit "moodok"], [lit "sad", lit "ok"]⟩ (by decide)⟩

/-- C9 as stated fails: the label `111` at position 0 has the empty identifier,
and its Go identifier is the type name followed by `UnnamedLabel0111`, not by
`UnnamedLabel0`: the digits of the label follow the position. -/
theorem NewEnumType_fallback_label_counterexample :
    lettersCaser.ToUpperGoIdent (lit "111") = [] ∧
    NewEnumType asciiUnicode (lit "example.com/db") ⟨lit "mood", [lit "111"]⟩ lettersCaser =
      some ⟨⟨lit "mood", [lit "111"]⟩, lit "example.com/db", lit "db", lit "mood",
        [lit "moodUnnamedLabel0111"], [lit "111"]⟩ ∧
    [lit "moodUnnamedLabel0111"][0]? ≠ some (lit "mood" ++ lit "UnnamedLabel" ++ Itoa 0) := by
  decide

/-- C9, amended: at a position `i` whose label the caser turns into the empty
identifier, `Labels[i]` of the result of `NewEnumType` is the `Name` of the
result, then `UnnamedLabel`, then the decimal position `i`, then the
characters of the label that are letters, digits or underscores, in their
original order.  `NewEnumType` returns exactly when `ExtractShortPackage`
returns on the package path. -/
theorem NewEnumType_fallback_label (u : Unicode) (pkgPath : GoString) (pgEnum : PgEnumType)
    (caser : Caser) (i : Nat) (label : GoString) (hlabel : pgEnum.Labels[i]? = some label)
    (hident : caser.ToUpperGoIdent label = []) :
    ((NewEnumType u pkgPath pgEnum caser).isSome ↔ (ExtractShortPackage pkgPath).isSome) ∧
    ∀ r : EnumType, NewEnumType u pkgPath pgEnum caser = some r →
      r.Labels[i]? = some (r.Name ++ lit "UnnamedLabel" ++ Itoa i ++ identChars u label) := by
  rw [NewEnumType_eq]
  refine ⟨by simp, ?_⟩
  intro r hr
  cases hpkg : ExtractShortPackage pkgPath with
  | none => simp [hpkg] at hr
  | some pkg =>
    rw [hpkg] at hr
    simp only [Option.map_some', Option.some.injEq] at hr
    subst hr
    simp [labelIdents_getElem?, hlabel, labelIdent, hident]

theorem NewEnumType_fallback_label_witness :
    [lit "sad", lit "", lit "111"][2]? = some (lit "111") ∧
    lettersCaser.ToUpperGoIdent (lit "111") = [] ∧
    NewEnumType asciiUnicode (lit "example.com/db") ⟨lit "123", [lit "sad", lit "", lit "111"]⟩
        lettersCaser =
      some ⟨⟨lit "123", [lit "sad", lit "", lit "111"]⟩, lit "example.com/db", lit "db",
        lit "UnnamedEnum123",
        [lit "UnnamedEnum123sad", lit "UnnamedEnum123UnnamedLabel1",
          lit "UnnamedEnum123UnnamedLabel2111"], [lit "sad", lit "", lit "111"]⟩ ∧
    [lit "UnnamedEnum123sad", lit "UnnamedEnum123UnnamedLabel1",
        lit "UnnamedEnum123UnnamedLabel2111"][2]? =
      some (lit "UnnamedEnum123" ++ lit "UnnamedLabel" ++ Itoa 2 ++
        identChars asciiUnicode (lit "111")) :=
  ⟨by decide, by decide, by decide,
    (NewEnumType_fallback_label asciiUnicode (lit "example.com/db")
      ⟨lit "123", [lit "sad", lit "", lit "111"]⟩ lettersCaser 2 (lit "111") (by decide)
      (by decide)).2
      ⟨⟨lit "123", [lit "sad", lit "", lit "111"]⟩, lit "example.com/db", lit "db",
        lit "UnnamedEnum123",
        [lit "UnnamedEnum123sad", lit "UnnamedEnum123UnnamedLabel1",
          lit "UnnamedEnum123UnnamedLabel2111"], [lit "sad", lit "", lit "111"]⟩ (by decide)⟩

/-! ## Type inference -/

theorem inferInputs_ok {κ τ : Type} (inf : Inferrer κ τ) (names : List GoString)
    (pgTypes : List κ) (hlen : pgTypes.length = names.length)
    (hres : ∀ t ∈ pgTypes, ∃ g, inf.resolve t = .ok g) :
    ∃ inputs : List (InputParam κ τ), inferInputs inf names pgTypes = .ok inputs ∧
      inputs.map (fun p => p.Name) = names ∧ inputs.map (fun p => p.PgType) = pgTypes ∧
      ∀ p ∈ inputs, inf.resolve p.PgType = .ok p.GoType := by
  induction names generalizing pgTypes with
  | nil =>
    cases pgTypes with
    | nil => exact ⟨[], by simp [inferInputs]⟩
    | cons t ts => simp at hlen
  | cons name names ih =>
    cases pgTypes with
    | nil => simp at hlen
    | cons t ts =>
      obtain ⟨g, hg⟩ := hres t (by simp)
      obtain ⟨inputs, hin, hnames, htypes, hgo⟩ :=
        ih ts (by simpa using hlen) (fun t2 ht2 => hres t2 (List.mem_cons_of_mem _ ht2))
      refine ⟨{ Name := name, PgType := t, GoType := g } :: inputs, ?_, ?_, ?_, ?_⟩
      · simp [inferInputs, hg, hin]
      · simp [hnames]
      · simp [htypes]
      · intro p hp
        rcases List.mem_cons.mp hp with hp | hp
        · rw [hp]
          exact hg
        · exact hgo p hp

theorem inferInputs_names {κ τ : Type} (inf : Inferrer κ τ) (names : List GoString)
    (pgTypes : List κ) (hlen : pgTypes.length = names.length)
    (inputs : List (InputParam κ τ)) (hin : inferInputs inf names pgTypes = .ok inputs) :
    inputs.map (fun p => p.Name) = names ∧ inputs.map (fun p => p.PgType) = pgTypes := by
  induction names generalizing pgTypes inputs with
  | nil =>
    cases pgTypes with
    | nil =>
      simp only [inferInputs, Result.ok.injEq] at hin
      simp [← hin]
    | cons t ts => simp at hlen
  | cons name names ih =>
    cases pgTypes with
    | nil => simp at hlen
    | cons t ts =>
      rw [inferInputs] at hin
      cases hg : inf.resolve t with
      | error err => simp [hg] at hin
      | ok g =>
        cases hrest : inferInputs inf names ts with
        | error err => simp [hg, hrest] at hin
        | ok rest =>
          simp only [hg, hrest, Result.ok.injEq] at hin
          obtain ⟨h1, h2⟩ := ih ts (by simpa using hlen) rest hrest
          simp [← hin, h1, h2]

/-- C10: for a query whose declared result kind is `Exec`, `InferTypes` succeeds
with empty `Outputs` whatever result columns the engine reports, and with one
input per parameter name in order.  Whenever it succeeds the typed query has
this shape; and it does succeed when the engine prepares the statement with as
many parameters as the query has parameter names, of types that the Resolver
resolves. -/
theorem InferTypes_exec {κ τ : Type} (inf : Inferrer κ τ) (q : SourceQuery)
    (hkind : q.Kind = .Exec) :
    (∀ tq : TypedQuery κ τ, InferTypes inf q = .ok tq →
      tq.Outputs = [] ∧ tq.Name = q.Name ∧ tq.PreparedSQL = q.PreparedSQL ∧
      tq.Inputs.length = q.ParamNames.length ∧
      tq.Inputs.map (fun p => p.Name) = q.ParamNames) ∧
    (∀ d : Description κ, inf.describe q.PreparedSQL = .ok d →
      d.Params.length = q.ParamNames.length →
      (∀ t ∈ d.Params, ∃ g, inf.resolve t = .ok g) →
      ∃ inputs : List (InputParam κ τ),
        InferTypes inf q =
          .ok { Name := q.Name, PreparedSQL := q.PreparedSQL, Inputs := inputs,
                Outputs := [] } ∧
        inputs.length = q.ParamNames.length ∧
        inputs.map (fun p => p.Name) = q.ParamNames ∧
        inputs.map (fun p => p.PgType) = d.Params ∧
        ∀ p ∈ inputs, inf.resolve p.PgType = .ok p.GoType) := by
  constructor
  · intro tq htq
    unfold InferTypes at htq
    cases hdesc : inf.describe q.PreparedSQL with
    | error err => simp [hdesc] at htq
    | ok d =>
      by_cases hcount : d.Params.length = q.ParamNames.length
      · cases hin : inferInputs inf q.ParamNames d.Params with
        | error err => simp [hdesc, hcount, hkind, hin] at htq
        | ok inputs =>
          simp only [hdesc, hcount, hkind, hin, inferOutputs, ne_eq, not_true_eq_false,
            false_and, if_false, Result.ok.injEq] at htq
          obtain ⟨h1, _⟩ := inferInputs_names inf q.ParamNames d.Params hcount inputs hin
          rw [← htq]
          refine ⟨rfl, rfl, rfl, ?_, h1⟩
          show inputs.length = q.ParamNames.length
          rw [← h1, List.length_map]
      · simp [hdesc, hcount] at htq
  · intro d hdesc hcount hres
    obtain ⟨inputs, hin, hnames, htypes, hgo⟩ :=
      inferInputs_ok inf q.ParamNames d.Params hcount hres
    refine ⟨inputs, ?_, ?_, hnames, htypes, hgo⟩
    · simp [InferTypes, hdesc, hcount, hkind, hin, inferOutputs]
    · rw [← hnames, List.length_map]

theorem InferTypes_exec_witness :
    (authorInferrer.describe
        (lit "DELETE FROM author WHERE author_id = $1 RETURNING author_id, first_name;") =
      .ok ⟨[lit "int4"],
        [⟨lit "author_id", lit "int4", some false⟩,
          ⟨lit "first_name", lit "text", some false⟩]⟩) ∧
    (∃ inputs : List (InputParam GoString GoString),
      InferTypes authorInferrer ⟨lit "DeleteAuthorByID",
          lit "DELETE FROM author WHERE author_id = $1 RETURNING author_id, first_name;",
          [lit "AuthorID"], .Exec⟩ =
        .ok { Name := lit "DeleteAuthorByID",
              PreparedSQL :=
                lit "DELETE FROM author WHERE author_id = $1 RETURNING author_id, first_name;",
              Inputs := inputs, Outputs := [] } ∧
      inputs.length = 1 ∧
      inputs.map (fun p => p.Name) = [lit "AuthorID"] ∧
      inputs.map (fun p => p.PgType) = [lit "int4"] ∧
      ∀ p ∈ inputs, authorInferrer.resolve p.PgType = .ok p.GoType) ∧
    InferTypes authorInferrer ⟨lit "DeleteAuthorByID",
        lit "DELETE FROM author WHERE author_id = $1;", [lit "AuthorID"], .Exec⟩ =
      .ok ⟨lit "DeleteAuthorByID", lit "DELETE FROM author WHERE author_id = $1;",
        [⟨lit "AuthorID", lit "int4", lit "int32"⟩], []⟩ :=
  ⟨by decide,
    (InferTypes_exec authorInferrer ⟨lit "DeleteAuthorByID",
      lit "DELETE FROM author WHERE author_id = $1 RETURNING author_id, first_name;",
      [lit "AuthorID"], .Exec⟩ rfl).2
      ⟨[lit "int4"],
        [⟨lit "author_id", lit "int4", some false⟩,
          ⟨lit "first_name", lit "text", some false⟩]⟩
      (by decide) (by decide)
      (fun t ht => ⟨lit "int32", by
        have h : t = lit "int4" := by simpa using ht
        rw [h]
        decide⟩),
    by decide⟩

theorem inferInputs_error {κ τ : Type} (inf : Inferrer κ τ) (names : List GoString)
    (pgTypes : List κ) (err : InferError) (h : inferInputs inf names pgTypes = .error err) :
    ∃ t, inf.resolve t = .error err := by
  induction names generalizing pgTypes with
  | nil => simp [inferInputs] at h
  | cons name names ih =>
    cases pgTypes with
    | nil => simp [inferInputs] at h
    | cons t ts =>
      rw [inferInputs] at h
      cases hg : inf.resolve t with
      | error e =>
        simp only [hg, Result.error.injEq] at h
        exact ⟨t, by rw [hg, h]⟩
      | ok g =>
        cases hrest : inferInputs inf names ts with
        | error e =>
          simp only [hg, hrest, Result.error.injEq] at h
          exact ih ts (by rw [hrest, h])
        | ok rest => simp [hg, hrest] at h

theorem inferOutputs_error {κ τ : Type} (inf : Inferrer κ τ) (i : Nat) (seen : List GoString)
    (cols : List (ResultColumn κ)) (err : InferError)
    (h : inferOutputs inf i seen cols = .error err) : ∃ t, inf.resolve t = .error err := by
  induction cols generalizing i seen with
  | nil => simp [inferOutputs] at h
  | cons col cols ih =>
    rw [inferOutputs] at h
    cases hg : inf.resolve col.PgType with
    | error e =>
      simp only [hg, Result.error.injEq] at h
      exact ⟨col.PgType, by rw [hg, h]⟩
    | ok g =>
      cases hrest : inferOutputs inf (i + 1) (inf.ident col.Name :: seen) cols with
      | error e =>
        simp only [hg, hrest, Result.error.injEq] at h
        exact ih _ _ (by rw [hrest, h])
      | ok rest => simp [hg, hrest] at h

/-- What `InferTypes` does for a statement that the engine prepares with as many
parameters as the query has parameter names, when the declared result kind is
not `Exec`. -/
theorem InferTypes_rows_eq {κ τ : Type} (inf : Inferrer κ τ) (q : SourceQuery)
    (d : Description κ) (hkind : q.Kind ≠ .Exec) (hdesc : inf.describe q.PreparedSQL = .ok d)
    (hcount : d.Params.length = q.ParamNames.length) :
    InferTypes inf q =
      if d.Columns.isEmpty then .error (.ResultKindMismatch (resultKindMismatchMessage q))
      else
        match inferInputs inf q.ParamNames d.Params with
        | .error err => .error err
        | .ok inputs =>
          match inferOutputs inf 0 [] d.Columns with
          | .error err => .error err
          | .ok outputs =>
            .ok { Name := q.Name, PreparedSQL := q.PreparedSQL, Inputs := inputs,
                  Outputs := outputs } := by
  unfold InferTypes
  have hcols : (match q.Kind with
      | .Exec => []
      | _ => d.Columns) = d.Columns := by
    cases hk : q.Kind with
    | Exec => exact absurd hk hkind
    | One => rfl
    | Many => rfl
  simp only [hdesc, hcount, ne_eq, not_true_eq_false, if_false, hcols, hkind, not_false_eq_true,
    true_and]

/-- C11: for a query whose declared result kind is `One` or `Many`, which the
engine prepares with as many parameters as the query has parameter names,
`InferTypes` fails with the error `query <Name> has incompatible result kind
:<kind>; the query doesn't return any rows`, the kind written `:one` or
`:many`, if and only if the engine reports no result column; on that failure
the returned `TypedQuery` is the empty value.  The Resolver has errors of its
own and never reports a result kind mismatch. -/
theorem InferTypes_result_kind_mismatch {κ τ : Type} (inf : Inferrer κ τ) (q : SourceQuery)
    (d : Description κ) (hkind : q.Kind = .One ∨ q.Kind = .Many)
    (hdesc : inf.describe q.PreparedSQL = .ok d)
    (hcount : d.Params.length = q.ParamNames.length)
    (hres : ∀ t msg, inf.resolve t ≠ .error (.ResultKindMismatch msg)) :
    (InferTypes inf q = .error (.ResultKindMismatch (resultKindMismatchMessage q)) ↔
      d.Columns = []) ∧
    ((∃ msg, InferTypes inf q = .error (.ResultKindMismatch msg)) ↔ d.Columns = []) ∧
    (d.Columns = [] →
      InferTypes.returned inf q =
        (TypedQuery.empty, some (.ResultKindMismatch (resultKindMismatchMessage q)))) ∧
    (q.Kind = .One → resultKindMismatchMessage q =
      lit "query " ++ q.Name ++
        lit " has incompatible result kind :one; the query doesn't return any rows") ∧
    (q.Kind = .Many → resultKindMismatchMessage q =
      lit "query " ++ q.Name ++
        lit " has incompatible result kind :many; the query doesn't return any rows") := by
  have hne : q.Kind ≠ .Exec := by
    rcases hkind with h | h <;> rw [h] <;> decide
  have heq := InferTypes_rows_eq inf q d hne hdesc hcount
  have hback : ∀ msg, InferTypes inf q = .error (.ResultKindMismatch msg) → d.Columns = [] := by
    intro msg hmsg
    by_contra hcols
    have hcols2 : ¬ d.Columns.isEmpty = true := fun h => hcols (List.isEmpty_iff.mp h)
    rw [heq, if_neg hcols2] at hmsg
    cases hin : inferInputs inf q.ParamNames d.Params with
    | error e =>
      simp only [hin, Result.error.injEq] at hmsg
      obtain ⟨t, ht⟩ := inferInputs_error inf _ _ e hin
      exact hres t msg (by rw [ht, hmsg])
    | ok inputs =>
      cases hout : inferOutputs inf 0 [] d.Columns with
      | error e =>
        simp only [hin, hout, Result.error.injEq] at hmsg
        obtain ⟨t, ht⟩ := inferOutputs_error inf _ _ _ e hout
        exact hres t msg (by rw [ht, hmsg])
      | ok outputs => simp [hin, hout] at hmsg
  have hforth : d.Columns = [] →
      InferTypes inf q = .error (.ResultKindMismatch (resultKindMismatchMessage q)) := by
    intro hcols
    rw [heq, if_pos (List.isEmpty_iff.mpr hcols)]
  refine ⟨⟨hback _, hforth⟩, ⟨fun ⟨msg, hmsg⟩ => hback msg hmsg, fun h => ⟨_, hforth h⟩⟩, ?_, ?_, ?_⟩
  · intro hcols
    rw [InferTypes.returned, hforth hcols]
  · intro hk
    have h1 : ResultKind.One.String = lit ":one" := rfl
    simp only [resultKindMismatchMessage, hk, h1]
    have h2 : lit " has incompatible result kind :one; the query doesn't return any rows" =
        lit " has incompatible result kind " ++ lit ":one" ++
          lit "; the query doesn't return any rows" := by decide
    rw [h2]
    simp
  · intro hk
    have h1 : ResultKind.Many.String = lit ":many" := rfl
    simp only [resultKindMismatchMessage, hk, h1]
    have h2 : lit " has incompatible result kind :many; the query doesn't return any rows" =
        lit " has incompatible result kind " ++ lit ":many" ++
          lit "; the query doesn't return any rows" := by decide
    rw [h2]
    simp

theorem InferTypes_result_kind_mismatch_witness :
    authorInferrer.describe (lit "DELETE FROM author WHERE author_id = $1;") =
      .ok ⟨[lit "int4"], []⟩ ∧
    InferTypes.returned authorInferrer ⟨lit "DeleteAuthorByIDMany",
        lit "DELETE FROM author WHERE author_id = $1;", [lit "AuthorID"], .Many⟩ =
      (TypedQuery.empty, some (.ResultKindMismatch (resultKindMismatchMessage
        ⟨lit "DeleteAuthorByIDMany", lit "DELETE FROM author WHERE author_id = $1;",
          [lit "AuthorID"], .Many⟩))) ∧
    resultKindMismatchMessage ⟨lit "DeleteAuthorByIDMany",
        lit "DELETE FROM author WHERE author_id = $1;", [lit "AuthorID"], .Many⟩ =
      lit ("query DeleteAuthorByIDMany has incompatible result kind :many; " ++
        "the query doesn't return any rows") ∧
    InferTypes.returned authorInferrer ⟨lit "DeleteAuthorByIDOne",
        lit "DELETE FROM author WHERE author_id = $1;", [lit "AuthorID"], .One⟩ =
      (TypedQuery.empty, some (.ResultKindMismatch
        (lit ("query DeleteAuthorByIDOne has incompatible result kind :one; " ++
          "the query doesn't return any rows")))) :=
  ⟨by decide,
    (InferTypes_result_kind_mismatch authorInferrer ⟨lit "DeleteAuthorByIDMany",
      lit "DELETE FROM author WHERE author_id = $1;", [lit "AuthorID"], .Many⟩
      ⟨[lit "int4"], []⟩ (Or.inr rfl) (by decide) (by decide)
      (fun t msg h => by
        simp only [authorInferrer] at h
        split_ifs at h
        cases h)).2.2.1 rfl,
    by decide, by decide⟩

/-! ## Panics of `ExtractShortPackage` -/

theorem index_last {α : Type} (xs : List α) (a : α) :
    index (xs ++ [a]) (((xs ++ [a]).length : Int) - 1) = some a := by
  have h1 : (((xs ++ [a]).length : Int) - 1) = ((xs.length : Nat) : Int) := by
    simp only [List.length_append, List.length_cons, List.length_nil]
    push_cast
    omega
  rw [h1, index, if_pos (Int.ofNat_nonneg _), Int.toNat_ofNat,
    List.getElem?_append_right (Nat.le_refl _)]
  simp

theorem index_before_last_single {α : Type} (a : α) :
    index [a] ((([a] : List α).length : Int) - 2) = none := by
  simp [index]

/-- The part that `ExtractShortPackage` reads first is the last one, and it is
always there. -/
theorem index_Split_last (pkgPath : GoString) :
    ∃ init last, Split pkgPath 47 = init ++ [last] ∧
      index (Split pkgPath 47) (((Split pkgPath 47).length : Int) - 1) = some last := by
  rcases List.eq_nil_or_concat (Split pkgPath 47) with h | ⟨init, last, h⟩
  · exact absurd h (splitLoop_ne_nil 47 pkgPath [])
  · rw [h]
    exact ⟨init, last, by simp, by simpa using index_last init last⟩

/-- `ExtractShortPackage` panics exactly on a path that is a bare major
version, such as `v2`. -/
theorem ExtractShortPackage_eq_none_iff (pkgPath : GoString) :
    ExtractShortPackage pkgPath = none ↔ IsMajorVersion pkgPath := by
  obtain ⟨init, last, hparts, hlast⟩ := index_Split_last pkgPath
  have hjoin := (joinPath_Split pkgPath).1
  rw [ExtractShortPackage_eq, hlast]
  dsimp only
  by_cases hm : majorVersionRegexpMatch last = true
  · rw [if_pos hm, hparts]
    rcases List.eq_nil_or_concat init with hinit | ⟨init2, prev, hinit⟩
    · subst hinit
      have hpath : pkgPath = last := by
        rw [← hjoin, hparts]
        simp [joinPath, List.intercalate]
      rw [hpath]
      constructor
      · intro _
        exact (majorVersionRegexpMatch_iff last).mp hm
      · intro _
        simpa using index_before_last_single last
    · rw [List.concat_eq_append] at hinit
      subst hinit
      have h2 := (index_last_two init2 prev last).2
      have happ : init2 ++ [prev] ++ [last] = init2 ++ [prev, last] := by simp
      rw [happ, h2]
      constructor
      · intro h
        cases h
      · intro hv
        exfalso
        obtain ⟨ds, _, hds, hv2⟩ := hv
        have hfree : (47 : Nat) ∉ pkgPath := by
          rw [hv2]
          intro hmem
          rcases List.mem_cons.mp hmem with h | h
          · omega
          · have := hds 47 h
            omega
        have hsingle : Split pkgPath 47 = [pkgPath] := by
          have := Split_joinPath [pkgPath] (by simp) (by simpa using hfree)
          simpa [joinPath, List.intercalate] using this
        rw [hparts, happ] at hsingle
        have hlen := congrArg List.length hsingle
        simp at hlen
  · rw [if_neg hm]
    constructor
    · intro h
      cases h
    · intro hv
      exfalso
      obtain ⟨ds, hne, hds, hv2⟩ := hv
      have hfree : (47 : Nat) ∉ pkgPath := by
        rw [hv2]
        intro hmem
        rcases List.mem_cons.mp hmem with h | h
        · omega
        · have := hds 47 h
          omega
      have hsingle : Split pkgPath 47 = [pkgPath] := by
        have := Split_joinPath [pkgPath] (by simp) (by simpa using hfree)
        simpa [joinPath, List.intercalate] using this
      rw [hparts] at hsingle
      have hl : last = pkgPath := by
        have := congrArg List.getLast? hsingle
        simpa using this
      exact hm ((majorVersionRegexpMatch_iff last).mpr (hl ▸ ⟨ds, hne, hds, hv2⟩))

/-- C12 fails on the code: for the path `v2`, which has the single part `v2`,
the first indexing `parts[len(parts)-1]` is in range and the second,
`parts[len(parts)-2]`, is not, so `ExtractShortPackage` panics; `NewOpaqueType`
panics on `v2.Foo` and `NewEnumType` on the package path `v2`. -/
theorem ExtractShortPackage_bare_version_panics :
    Split (lit "v2") 47 = [lit "v2"] ∧
    index (Split (lit "v2") 47) (((Split (lit "v2") 47).length : Int) - 1) = some (lit "v2") ∧
    index (Split (lit "v2") 47) (((Split (lit "v2") 47).length : Int) - 2) = none ∧
    ExtractShortPackage (lit "v2") = none ∧
    NewOpaqueType (lit "v2.Foo") = none ∧
    NewEnumType asciiUnicode (lit "v2") ⟨lit "mood", [lit "sad"]⟩ lettersCaser = none := by
  decide

/-! ## Label identifiers -/

/-- C13 fails on the code: in the enum `mood` with the eleven labels `a`, `0`,
`b`, `c`, `d`, `e`, `f`, `g`, `h`, `i` and `!`, the labels at the positions 1
and 10 both have the empty identifier, and `NewEnumType` gives both the Go
identifier `moodUnnamedLabel10`: the position 1 followed by the digit of the
label `0`, and the position 10 followed by nothing. -/
theorem NewEnumType_fallback_labels_collide :
    lettersCaser.ToUpperGoIdent (lit "0") = [] ∧ lettersCaser.ToUpperGoIdent (lit "!") = [] ∧
    (NewEnumType asciiUnicode (lit "example.com/db")
        ⟨lit "mood", [lit "a", lit "0", lit "b", lit "c", lit "d", lit "e", lit "f", lit "g",
          lit "h", lit "i", lit "!"]⟩ lettersCaser).map (fun r => (r.Labels[1]?, r.Labels[10]?)) =
      some (some (lit "moodUnnamedLabel10"), some (lit "moodUnnamedLabel10")) := by
  decide

theorem labelIdent_ne_nil (u : Unicode) (caser : Caser) (i : Nat) (label : GoString) :
    labelIdent u caser i label ≠ [] := by
  unfold labelIdent
  by_cases h : caser.ToUpperGoIdent label = []
  · rw [if_pos h]
    have hp : lit "UnnamedLabel" ≠ [] := by decide
    exact List.append_ne_nil_of_left_ne_nil (List.append_ne_nil_of_left_ne_nil hp _) _
  · rw [if_neg h]
    exact h

theorem labelIdents_mem (u : Unicode) (caser : Caser) (name : GoString) (k : Nat)
    (todo : List GoString) :
    ∀ l ∈ labelIdents u caser name k todo, ∃ ident, ident ≠ [] ∧ l = name ++ ident := by
  induction todo generalizing k with
  | nil => simp [labelIdents]
  | cons label todo ih =>
    intro l hl
    rw [labelIdents] at hl
    rcases List.mem_cons.mp hl with h | h
    · exact ⟨labelIdent u caser k label, labelIdent_ne_nil u caser k label, h⟩
    · exact ih (k + 1) l h

/-- C14: whatever the caser returns, the `Name` of the result of `NewEnumType`
is non-empty, and every entry of `Labels` starts with `Name` and is strictly
longer than it.  `NewEnumType` returns exactly when `ExtractShortPackage`
returns on the package path. -/
theorem NewEnumType_labels_extend_name (u : Unicode) (pkgPath : GoString)
    (pgEnum : PgEnumType) (caser : Caser) :
    ((NewEnumType u pkgPath pgEnum caser).isSome ↔ (ExtractShortPackage pkgPath).isSome) ∧
    ∀ r : EnumType, NewEnumType u pkgPath pgEnum caser = some r →
      r.Name ≠ [] ∧ ∀ l ∈ r.Labels, r.Name <+: l ∧ r.Name.length < l.length := by
  rw [NewEnumType_eq]
  refine ⟨by simp, ?_⟩
  intro r hr
  cases hpkg : ExtractShortPackage pkgPath with
  | none => simp [hpkg] at hr
  | some pkg =>
    rw [hpkg] at hr
    simp only [Option.map_some', Option.some.injEq] at hr
    subst hr
    constructor
    · show (if caser.ToUpperGoIdent pgEnum.Name = [] then
          lit "UnnamedEnum" ++ identChars u pgEnum.Name
        else caser.ToUpperGoIdent pgEnum.Name) ≠ []
      by_cases h : caser.ToUpperGoIdent pgEnum.Name = []
      · rw [if_pos h]
        exact List.append_ne_nil_of_left_ne_nil (by decide) _
      · rw [if_neg h]
        exact h
    · intro l hl
      obtain ⟨ident, hident, hl2⟩ := labelIdents_mem u caser _ 0 pgEnum.Labels l hl
      rw [hl2]
      refine ⟨List.prefix_append _ _, ?_⟩
      have : 0 < ident.length := List.length_pos.mpr hident
      simp only [List.length_append]
      omega

theorem NewEnumType_labels_extend_name_witness :
    NewEnumType asciiUnicode (lit "example.com/db") ⟨lit "!", [lit "sad", lit ""]⟩
        lettersCaser =
      some ⟨⟨lit "!", [lit "sad", lit ""]⟩, lit "example.com/db", lit "db", lit "UnnamedEnum",
        [lit "UnnamedEnumsad", lit "UnnamedEnumUnnamedLabel1"], [lit "sad", lit ""]⟩ ∧
    lit "UnnamedEnum" ≠ [] ∧
    ∀ l ∈ [lit "UnnamedEnumsad", lit "UnnamedEnumUnnamedLabel1"],
      lit "UnnamedEnum" <+: l ∧ (lit "UnnamedEnum").length < l.length :=
  ⟨by decide,
    (NewEnumType_labels_extend_name asciiUnicode (lit "example.com/db")
      ⟨lit "!", [lit "sad", lit ""]⟩ lettersCaser).2
      ⟨⟨lit "!", [lit "sad", lit ""]⟩, lit "example.com/db", lit "db", lit "UnnamedEnum",
        [lit "UnnamedEnumsad", lit "UnnamedEnumUnnamedLabel1"], [lit "sad", lit ""]⟩
      (by decide)⟩

/-! ## Fallback names -/

theorem identChars_identChars (u : Unicode) (s : GoString) :
    identChars u (identChars u s) = identChars u s := by
  have hvalid : ∀ r ∈ (runes s).filter
      (fun ch => u.IsLetter ch = true ∨ ch = 95 ∨ u.IsDigit ch = true), ValidRune r :=
    fun r hr => runes_valid s r (List.mem_of_mem_filter hr)
  conv_lhs => rw [identChars]
  rw [show identChars u s = ((runes s).filter
      (fun ch => u.IsLetter ch = true ∨ ch = 95 ∨ u.IsDigit ch = true)).flatMap encodeRune
    from rfl, runes_flatMap_encodeRune _ hvalid, List.filter_filter]
  simp

/-- C15: `ChooseFallbackName(s, p)` is `p` followed by the characters of `s`
that are letters, digits or underscores, in their original order; so
sanitizing twice is sanitizing once:
`ChooseFallbackName(ChooseFallbackName(s, ""), p) = ChooseFallbackName(s, p)`. -/
theorem ChooseFallbackName_sanitizes (u : Unicode) (s p : GoString) :
    ChooseFallbackName u s p = p ++ identChars u s ∧
    ChooseFallbackName u s p = p ++
      ((runes s).filter (fun ch => u.IsLetter ch = true ∨ ch = 95 ∨ u.IsDigit ch = true)).flatMap
        encodeRune ∧
    ChooseFallbackName u (ChooseFallbackName u s (lit "")) p = ChooseFallbackName u s p := by
  have hempty : lit "" = [] := rfl
  refine ⟨ChooseFallbackName_eq u s p, ChooseFallbackName_eq u s p, ?_⟩
  rw [ChooseFallbackName_eq u s (lit ""), hempty, List.nil_append, ChooseFallbackName_eq,
    ChooseFallbackName_eq, identChars_identChars]

/-! ## The short package is a segment of the path -/

/-- C16: when `ExtractShortPackage` returns on a package path, the short
package it returns has no `/` in it and is the last or the second-to-last of
the `/`-separated segments of the path. -/
theorem ExtractShortPackage_is_segment (pkgPath pkg : GoString)
    (h : ExtractShortPackage pkgPath = some pkg) :
    47 ∉ pkg ∧
    ∃ segs : List GoString, joinPath segs = pkgPath ∧ (∀ seg ∈ segs, 47 ∉ seg) ∧ pkg ∈ segs ∧
      ((∃ init, segs = init ++ [pkg]) ∨ (∃ init last, segs = init ++ [pkg, last])) := by
  obtain ⟨hjoin, _, hfree⟩ := joinPath_Split pkgPath
  obtain ⟨init, last, hparts, hlast⟩ := index_Split_last pkgPath
  have hpos : (∃ init, Split pkgPath 47 = init ++ [pkg]) ∨
      (∃ init last, Split pkgPath 47 = init ++ [pkg, last]) := by
    rw [ExtractShortPackage_eq, hlast] at h
    dsimp only at h
    by_cases hm : majorVersionRegexpMatch last = true
    · rw [if_pos hm, hparts] at h
      rcases List.eq_nil_or_concat init with hinit | ⟨init2, prev, hinit⟩
      · subst hinit
        rw [List.nil_append, index_before_last_single] at h
        cases h
      · rw [List.concat_eq_append] at hinit
        subst hinit
        have happ : init2 ++ [prev] ++ [last] = init2 ++ [prev, last] := by simp
        rw [happ, (index_last_two init2 prev last).2] at h
        cases h
        exact Or.inr ⟨init2, last, by rw [hparts, happ]⟩
    · rw [if_neg hm] at h
      cases h
      exact Or.inl ⟨init, hparts⟩
  have hmem : pkg ∈ Split pkgPath 47 := by
    rcases hpos with ⟨i, hi⟩ | ⟨i, l, hi⟩ <;> rw [hi] <;> simp
  exact ⟨hfree pkg hmem, Split pkgPath 47, hjoin, hfree, hmem, hpos⟩

theorem ExtractShortPackage_is_segment_witness :
    ExtractShortPackage (lit "github.com/jschaf/pggen/v2") = some (lit "pggen") ∧
    47 ∉ lit "pggen" ∧
    ∃ segs : List GoString, joinPath segs = lit "github.com/jschaf/pggen/v2" ∧
      (∀ seg ∈ segs, 47 ∉ seg) ∧ lit "pggen" ∈ segs ∧
      ((∃ init, segs = init ++ [lit "pggen"]) ∨
        (∃ init last, segs = init ++ [lit "pggen", last])) :=
  ⟨by decide,
    ExtractShortPackage_is_segment (lit "github.com/jschaf/pggen/v2") (lit "pggen") (by decide)⟩

end Pggen
